import Mathlib

/-!
Verification of the scap_web content pipeline (summarizer.py, video_generator.py).

The development shallowly embeds the pipeline's pure logic:
* script cleaning and TikTok chunking (regex tag removal, whitespace collapse,
  word grouping) over lists of characters,
* the per-chunk duration computation of generate_video over rationals,
* the clip-assembly, resource-lifecycle, image-acquisition, summarization-chain,
  and prompt-generation control flow, with all external calls (LLM backends,
  image backend, TTS) abstracted as explicit oracle arguments.

Definitions mirror the Python source; theorems settle the specified behaviour.
-/

namespace ScapWeb

/-- Whitespace characters recognised by the re module's regex class backslash-s
on ASCII text: space, tab, newline, carriage return, vertical tab, form feed.
Used by the whitespace-collapsing step of clean_script_for_tts and
chunk_text_for_tiktok. -/
def isWsChar (c : Char) : Bool :=
  c = ' ' || c = '\t' || c = '\n' || c = '\r' || c = '\x0b' || c = '\x0c'

/-- Scanning helper for the lazy bracket regex: from the characters after an
opening bracket, the remainder after the first closing bracket, provided no
newline comes first (the regex dot does not match newline). -/
def findCloseBracket : List Char → Option (List Char)
  | [] => none
  | c :: cs => if c = ']' then some cs else if c = '\n' then none else findCloseBracket cs

/-- Whether a closing bracket is reachable without crossing a newline. -/
def closeReach (l : List Char) : Bool :=
  (findCloseBracket l).isSome

/-- Worker for removeBracketTags.  The state holds, when a still-open bracket is
pending, the characters read since it (reversed).  On a closing bracket the
whole pending span is dropped; on a newline the pending span is flushed
unchanged (the regex cannot match across a newline); at the end of input a
pending span is flushed unchanged. -/
def rbtAux : Option (List Char) → List Char → List Char
  | none, [] => []
  | some buf, [] => '[' :: buf.reverse
  | none, c :: cs =>
    if c = '[' then rbtAux (some []) cs
    else c :: rbtAux none cs
  | some buf, c :: cs =>
    if c = ']' then rbtAux none cs
    else if c = '\n' then ('[' :: buf.reverse) ++ '\n' :: rbtAux none cs
    else rbtAux (some (c :: buf)) cs

/-- Embedding of the source's re.sub of the lazy bracketed-tag pattern with the
empty string: every span from an opening bracket to the nearest closing bracket
on the same line is removed, scanning left to right; an opening bracket with no
same-line closing bracket is kept. -/
def removeBracketTags (l : List Char) : List Char :=
  rbtAux none l

/-- One pass of the whitespace-collapsing re.sub: every maximal run of
whitespace characters becomes a single space (emitted at the run's last
character). -/
def subWsRuns : List Char → List Char
  | [] => []
  | c :: cs =>
    if isWsChar c then
      match cs with
      | [] => [' ']
      | c2 :: _ => if isWsChar c2 then subWsRuns cs else ' ' :: subWsRuns cs
    else c :: subWsRuns cs

/-- Embedding of str.strip: drop whitespace from both ends. -/
def stripWs (l : List Char) : List Char :=
  ((l.dropWhile isWsChar).reverse.dropWhile isWsChar).reverse

/-- Worker for splitWs, accumulating the current word reversed. -/
def splitWsAux : List Char → List Char → List (List Char)
  | [], acc => if acc = [] then [] else [acc.reverse]
  | c :: cs, acc =>
    if isWsChar c then
      if acc = [] then splitWsAux cs [] else acc.reverse :: splitWsAux cs []
    else splitWsAux cs (c :: acc)

/-- Embedding of str.split with no argument: the maximal whitespace-free runs,
in order; never yields an empty word. -/
def splitWs (l : List Char) : List (List Char) :=
  splitWsAux l []

/-- Embedding of joining a word list with a single space between words. -/
def joinSp : List (List Char) → List Char
  | [] => []
  | [w] => w
  | w :: ws => w ++ ' ' :: joinSp ws

/-- Embedding of clean_script_for_tts (video_generator.py lines 198 to 207):
remove bracketed structural tags, then collapse runs of whitespace to single
spaces and strip the ends. -/
def clean_script_for_tts (s : List Char) : List Char :=
  stripWs (subWsRuns (removeBracketTags s))

/-- The grouping loop of chunk_text_for_tiktok: words are taken k at a time in
order and joined with single spaces; an empty joined chunk would be skipped
(the source's guard), and the k = 0 case is out of the source's domain (the
Python range would raise) and yields the empty list here. -/
def chunkJoin (k : ℕ) (ws : List (List Char)) : List (List Char) :=
  if h : ws = [] ∨ k = 0 then []
  else
    let c := joinSp (ws.take k)
    if c = [] then chunkJoin k (ws.drop k) else c :: chunkJoin k (ws.drop k)
termination_by ws.length
decreasing_by
  all_goals
    simp only [List.length_drop]
    rcases ws with _ | ⟨w, ws⟩
    · exact absurd (Or.inl rfl) h
    · have hk : k ≠ 0 := fun hk0 => h (Or.inr hk0)
      simp only [List.length_cons]
      omega

/-- Embedding of chunk_text_for_tiktok (video_generator.py lines 214 to 231):
the script is cleaned exactly as in clean_script_for_tts (the source inlines the
same two re.sub calls), split into words, and grouped k words at a time. -/
def chunk_text_for_tiktok (s : List Char) (k : ℕ) : List (List Char) :=
  chunkJoin k (splitWs (clean_script_for_tts s))

/-- Whether the pattern is a prefix of the text. -/
def startsWithB : List Char → List Char → Bool
  | [], _ => true
  | _ :: _, [] => false
  | p :: ps, c :: cs => p = c && startsWithB ps cs

/-- Whether the pattern occurs as a contiguous substring of the text. -/
def containsSub (pat : List Char) : List Char → Bool
  | [] => startsWithB pat []
  | c :: cs => startsWithB pat (c :: cs) || containsSub pat cs

/-- Whether a closing bracket is reachable through non-whitespace characters
only. -/
def nonWsReach : List Char → Bool
  | [] => false
  | c :: cs => if c = ']' then true else if isWsChar c then false else nonWsReach cs

/-- Whether the text contains a bracketed span whose interior is free of
whitespace. -/
def containsTight : List Char → Bool
  | [] => false
  | c :: cs => (c = '[' && nonWsReach cs) || containsTight cs

/-- Whether the text contains a bracketed marker: an opening bracket with a
closing bracket reachable on the same line (no intervening newline). -/
def containsMarker : List Char → Bool
  | [] => false
  | c :: cs => (c = '[' && closeReach cs) || containsMarker cs

/-- Whether the text contains an opening bracket anywhere before a closing
bracket. -/
def hasOBC : List Char → Bool
  | [] => false
  | c :: cs => (c = '[' && cs.any (fun d => d = ']')) || hasOBC cs

/-- Whether no bracket pair of the text spans a newline: every opening bracket
either has its nearest closing bracket on the same line (reachable without
crossing a newline) or has no closing bracket after it at all.  Ordinary
multi-line scripts whose tags sit on single lines satisfy this; a span like
open-bracket A newline close-bracket violates it. -/
def tagsOneLine : List Char → Bool
  | [] => true
  | c :: cs =>
    (if c = '[' then ((findCloseBracket cs).isSome || !(cs.any (fun d => d = ']'))) else true)
      && tagsOneLine cs

/-- Whether the text is free of two consecutive whitespace characters. -/
def noDoubleWs : List Char → Bool
  | a :: b :: rest => !(isWsChar a && isWsChar b) && noDoubleWs (b :: rest)
  | _ => true

/-- The interior of the structural hook tag. -/
def hookInterior : List Char := ['H', 'O', 'O', 'K']

/-- The literal structural tag from the script format opening section. -/
def hookTag : List Char := '[' :: (hookInterior ++ [']'])

/-- The interior of the structural close tag. -/
def closeInterior : List Char := ['C', 'L', 'O', 'S', 'E']

/-- The literal structural tag from the script format closing section. -/
def closeTag : List Char := '[' :: (closeInterior ++ [']'])

/-! Pacing: the per-chunk duration computation of generate_video. -/

/-- Module constant MIN_CHUNK_DURATION = 1.5 seconds. -/
def MIN_CHUNK_DURATION : ℚ := 3 / 2

/-- Module constant MAX_CHUNK_DURATION = 3.5 seconds. -/
def MAX_CHUNK_DURATION : ℚ := 7 / 2

/-- Module constant DEFAULT_CHUNK_DURATION = 2.5 seconds, used when the chunk
list is empty. -/
def DEFAULT_CHUNK_DURATION : ℚ := 5 / 2

/-- Module constant DEFAULT_WORDS_PER_CHUNK = 4. -/
def DEFAULT_WORDS_PER_CHUNK : ℕ := 4

/-- Module constant RETRY_ATTEMPTS = 2 for image generation. -/
def RETRY_ATTEMPTS : ℕ := 2

/-- Embedding of generate_video's timing computation (video_generator.py lines
885 to 886): the audio duration divided by the number of chunks (or the default
when there are none), clamped into the min and max window.  Every clip receives
this same value. -/
def time_per_chunk (audio_duration : ℚ) (numChunks : ℕ) : ℚ :=
  let t := if numChunks ≠ 0 then audio_duration / numChunks else DEFAULT_CHUNK_DURATION
  max MIN_CHUNK_DURATION (min MAX_CHUNK_DURATION t)

/-- The list of per-shot durations generate_video assigns: one entry per chunk,
all equal to time_per_chunk. -/
def shot_durations (audio_duration : ℚ) (numChunks : ℕ) : List ℚ :=
  List.replicate numChunks (time_per_chunk audio_duration numChunks)

/-! Clip assembly: which image source backs each clip of the timeline. -/

/-- The image backing a clip: one of the pre-generated themed images (by
index), or the dedicated dramatic hook image of create_hook_clip. -/
inductive ImageSource
  | themed (i : ℕ)
  | hookImage
deriving DecidableEq

/-- One visual clip of the assembled timeline. -/
structure Shot where
  src : ImageSource
  duration : ℚ
deriving DecidableEq

/-- Embedding of create_hook_clip (video_generator.py lines 819 to 827): a clip
backed by a separately generated dramatic image. -/
def create_hook_clip (duration : ℚ) : Shot :=
  ⟨ImageSource.hookImage, duration⟩

/-- Embedding of generate_video's clip-building loop (video_generator.py lines
891 to 898): for each chunk index i a clip backed by themed image i modulo the
themed-image count, all with the same clamped duration.  create_hook_clip is
not called anywhere in generate_video. -/
def generate_video_clips (numChunks numImages : ℕ) (audio_duration : ℚ) : List Shot :=
  (List.range numChunks).map
    (fun i => ⟨ImageSource.themed (i % numImages), time_per_chunk audio_duration numChunks⟩)

/-! Resource lifecycle of generate_video. -/

/-- The point at which a run of generate_video raises, if any: during TTS
synthesis, while opening the audio clip, during themed-image generation, during
chunking, while building clips, during concatenation, or during the final
write_videofile call. -/
inductive FailPoint
  | noFail
  | atTTS
  | atLoadAudio
  | atImages
  | atChunking
  | atClipBuild
  | atConcat
  | atRender
deriving DecidableEq

/-- The observable resource state at exit of one generate_video invocation. -/
structure RunResult where
  completed : Bool
  audioOpened : Bool
  audioClosed : Bool
  tempCreated : Bool
  tempDeleted : Bool
  clipsCreated : Bool
  clipsClosed : Bool
  compositeCreated : Bool
  compositeClosed : Bool
  cleanupRuns : ℕ
deriving DecidableEq

/-- Embedding of generate_video's control flow (video_generator.py lines 857 to
961) as seen by the resources.  The try block at line 915 covers only
write_videofile; its finally block (lines 933 to 955) closes the audio handle,
the composite, every clip, and unlinks the temporary audio file.  The outer
except block (line 957) logs and re-raises without releasing anything, so a
failure raised after the audio is opened (line 871) but before rendering starts
leaves the audio handle, the clips and the temporary audio file unreleased. -/
def generate_video_run : FailPoint → RunResult
  | .atTTS => ⟨false, false, false, false, false, false, false, false, false, 0⟩
  | .atLoadAudio => ⟨false, false, false, true, false, false, false, false, false, 0⟩
  | .atImages => ⟨false, true, false, true, false, false, false, false, false, 0⟩
  | .atChunking => ⟨false, true, false, true, false, false, false, false, false, 0⟩
  | .atClipBuild => ⟨false, true, false, true, false, true, false, false, false, 0⟩
  | .atConcat => ⟨false, true, false, true, false, true, false, false, false, 0⟩
  | .atRender => ⟨false, true, true, true, true, true, true, true, true, 1⟩
  | .noFail => ⟨true, true, true, true, true, true, true, true, true, 1⟩

/-! Image acquisition. -/

/-- The color mode of a raster image, as PIL records it. -/
inductive ColorMode
  | rgb
  | grayscale
  | other
deriving DecidableEq

/-- A raster image, abstracted to its dimensions and color mode. -/
structure PImage where
  width : ℕ
  height : ℕ
  mode : ColorMode
deriving DecidableEq

/-- Module constant VIDEO_WIDTH = 1080. -/
def VIDEO_WIDTH : ℕ := 1080

/-- Module constant VIDEO_HEIGHT = 1920. -/
def VIDEO_HEIGHT : ℕ := 1920

/-- Embedding of create_gradient_background (video_generator.py lines 109 to
122): a new RGB image of the canonical dimensions filled with a two-tone
top-to-bottom gradient; a pure drawing loop that cannot fail. -/
def create_gradient_background : PImage :=
  ⟨VIDEO_WIDTH, VIDEO_HEIGHT, ColorMode.rgb⟩

/-- The gradient's pixel color on row y of create_gradient_background: the dark
purple to blue interpolation with the source's float-to-int truncation. -/
def gradient_pixel (y : ℕ) : ℕ × ℕ × ℕ :=
  (20 + y * 10 / VIDEO_HEIGHT, 10 + y * 20 / VIDEO_HEIGHT, 40 + y * 50 / VIDEO_HEIGHT)

/-- The center-crop step of resize_and_crop_image (video_generator.py lines 125
to 142): if the source is wider than the target ratio the width is cropped,
otherwise the height, with the float-to-int truncation of the source. -/
def crop_dims (img : PImage) (tw th : ℕ) : PImage :=
  if img.width * th > img.height * tw then
    ⟨img.height * tw / th, img.height, img.mode⟩
  else
    ⟨img.width, img.width * th / tw, img.mode⟩

/-- The final scaling step of resize_and_crop_image (line 144): PIL resize
returns an image of exactly the requested dimensions, preserving the mode. -/
def resize_exact (img : PImage) (tw th : ℕ) : PImage :=
  ⟨tw, th, img.mode⟩

/-- Embedding of resize_and_crop_image: center-crop to the target ratio, then
scale to exactly the target dimensions. -/
def resize_and_crop_image (img : PImage) (tw th : ℕ) : PImage :=
  resize_exact (crop_dims img tw th) tw th

/-- Embedding of generate_image_fal (video_generator.py lines 59 to 106) over
an oracle for the backend: with no credential the gradient fallback is
returned immediately; otherwise up to RETRY_ATTEMPTS attempts are made, each
either yielding a downloaded image (resized and center-cropped to canonical
dimensions and returned) or failing (exception or missing payload, consuming
one attempt); exhausting the attempts returns the gradient fallback.  Every
path returns an image; none raises. -/
def generate_image_fal (keyConfigured : Bool) (attempts : List (Option PImage)) : PImage :=
  if keyConfigured = false then create_gradient_background
  else
    match (attempts.take RETRY_ATTEMPTS).findSome? id with
    | some img => resize_and_crop_image img VIDEO_WIDTH VIDEO_HEIGHT
    | none => create_gradient_background

/-! Summarization fallback chain. -/

/-- The structured summary parse_response returns. -/
structure SummaryResult where
  tldr : List Char
  bullets : List (List Char)
  video_script : List Char
  hashtags : List (List Char)
deriving DecidableEq

/-- The JSON object a provider's decoded response carries, with each of the
four required keys possibly missing. -/
structure JsonDoc where
  tldr : Option (List Char)
  bullets : Option (List (List Char))
  video_script : Option (List Char)
  hashtags : Option (List (List Char))
deriving DecidableEq

/-- The outcome of one provider's network call: a network or HTTP error with
its message, or a raw response whose fence-stripped text either fails JSON
decoding (none) or decodes to a JsonDoc. -/
inductive ProviderResponse
  | netError (msg : List Char)
  | response (doc : Option JsonDoc)
deriving DecidableEq

/-- The recorded message when json.loads raises on a provider's response. -/
def jsonDecodeMsg : List Char :=
  ['J', 'S', 'O', 'N', 'D', 'e', 'c', 'o', 'd', 'e', 'E', 'r', 'r', 'o', 'r']

/-- Embedding of one summarize_with backend call followed by parse_response
(summarizer.py lines 78 to 93): network and HTTP errors propagate; a decodable
response always succeeds, with each of the four keys read by dict.get and a
missing key silently replaced by its default (empty string or empty list);
only json.loads failure makes a decoded-side error. -/
def provider_attempt : ProviderResponse → Except (List Char) SummaryResult
  | .netError m => Except.error m
  | .response none => Except.error jsonDecodeMsg
  | .response (some j) =>
      Except.ok ⟨j.tldr.getD [], j.bullets.getD [], j.video_script.getD [], j.hashtags.getD []⟩

/-- The four providers of the chain, in the order summarize_article tries
them. -/
inductive Provider
  | openrouter
  | groq
  | mistral
  | gemini
deriving DecidableEq

/-- A provider attempt that fails: a network or HTTP error with its message, or
a response whose JSON decoding fails.  Every failing ProviderResponse is of one
of these two forms. -/
inductive ProviderFail
  | net (msg : List Char)
  | badJson
deriving DecidableEq

/-- The ProviderResponse a failing attempt stands for. -/
def ProviderFail.toResponse : ProviderFail → ProviderResponse
  | .net m => ProviderResponse.netError m
  | .badJson => ProviderResponse.response none

/-- The error message the chain records for a failing attempt. -/
def ProviderFail.msg : ProviderFail → List Char
  | .net m => m
  | .badJson => jsonDecodeMsg

/-- Embedding of summarize_article (summarizer.py lines 211 to 252): four
sequential try blocks in the fixed order OpenRouter, Groq, Mistral, Gemini;
the first success returns immediately; each failure records the provider's
error message in the errors dict; after the fourth failure one aggregate
exception carrying the whole errors dict is raised.  The second component
lists which providers were invoked, in order. -/
def summarize_article (r1 r2 r3 r4 : ProviderResponse) :
    Except (List (Provider × List Char)) SummaryResult × List Provider :=
  match provider_attempt r1 with
  | Except.ok v => (Except.ok v, [Provider.openrouter])
  | Except.error e1 =>
    match provider_attempt r2 with
    | Except.ok v => (Except.ok v, [Provider.openrouter, Provider.groq])
    | Except.error e2 =>
      match provider_attempt r3 with
      | Except.ok v => (Except.ok v, [Provider.openrouter, Provider.groq, Provider.mistral])
      | Except.error e3 =>
        match provider_attempt r4 with
        | Except.ok v =>
            (Except.ok v,
             [Provider.openrouter, Provider.groq, Provider.mistral, Provider.gemini])
        | Except.error e4 =>
            (Except.error
               [(Provider.openrouter, e1), (Provider.groq, e2),
                (Provider.mistral, e3), (Provider.gemini, e4)],
             [Provider.openrouter, Provider.groq, Provider.mistral, Provider.gemini])

/-! Prompt generation with validation and one retry. -/

/-- One chat-completion call to the prompt backend: whether it is the stricter
retry (build_prompt's is_retry flag, which prepends the critical-instructions
block) and its sampling temperature in tenths (the source's 0.7 and 0.5). -/
structure GroqCall where
  isRetry : Bool
  temperatureTenths : ℕ
deriving DecidableEq

/-- The first, ordinary call: is_retry false, temperature 0.7. -/
def initialCall : GroqCall := ⟨false, 7⟩

/-- The single retry call: is_retry true with the stricter instruction block,
temperature lowered to 0.5. -/
def retryCall : GroqCall := ⟨true, 5⟩

/-- An entry of the parsed JSON array: a string prompt, or a non-string value
(none), which validation rejects. -/
abbrev PromptEntry : Type := Option (List Char)

/-- Lower-case a character list, as str.lower does for ASCII text. -/
def toLowerList (l : List Char) : List Char :=
  l.map Char.toLower

/-- Embedding of validate_prompts (video_generator.py lines 521 to 550): every
entry must be a string containing at least one of the visual keywords as a
case-insensitive substring; with no keywords every string passes.  (The source
also computes a setting check per prompt but never uses it.) -/
def validate_prompts (prompts : List PromptEntry) (keywords : List (List Char)) : Bool :=
  prompts.all fun e =>
    match e with
    | none => false
    | some p =>
        if keywords = [] then true
        else keywords.any fun kw => containsSub (toLowerList kw) (toLowerList p)

/-- Embedding of generate_image_prompts_with_groq (video_generator.py lines 455
to 695) over an oracle giving each call's parsed outcome (none when JSON
parsing fails or the backend raises; some for a parsed array).  With no API key
no call is made and the result is null.  Otherwise the first call is issued; a
parse failure or an array shorter than the requested count returns null with no
retry; a full array is truncated to the count and validated; on validation
failure exactly one stricter, lower-temperature retry is issued and its
response goes through the same parse, length, truncation, and validation steps,
returning null on any failure. -/
def generate_image_prompts_with_groq (apiKey : Bool) (numPrompts : ℕ)
    (keywords : List (List Char)) (resp1 resp2 : Option (List PromptEntry)) :
    Option (List PromptEntry) × List GroqCall :=
  if apiKey = false then (none, [])
  else
    match resp1 with
    | none => (none, [initialCall])
    | some ps =>
      if ps.length < numPrompts then (none, [initialCall])
      else
        let ps1 := ps.take numPrompts
        if validate_prompts ps1 keywords then (some ps1, [initialCall])
        else
          match resp2 with
          | none => (none, [initialCall, retryCall])
          | some rs =>
            if rs.length < numPrompts then (none, [initialCall, retryCall])
            else
              let rs1 := rs.take numPrompts
              if validate_prompts rs1 keywords then (some rs1, [initialCall, retryCall])
              else (none, [initialCall, retryCall])

/-- Whether the single retry produces a usable prompt list: it parses, has at
least the requested count of entries, and its first numPrompts entries all pass
the keyword validation. -/
def retrySucceeds (numPrompts : ℕ) (keywords : List (List Char))
    (resp2 : Option (List PromptEntry)) : Bool :=
  match resp2 with
  | none => false
  | some rs =>
      if rs.length < numPrompts then false
      else validate_prompts (rs.take numPrompts) keywords

/-! Themed image generation and its fallback prompts. -/

/-- The subjects dict extract_story_subjects returns, with each key possibly
absent (the backend's JSON is taken as is). -/
structure StorySubjects where
  main_subject : Option (List Char)
  visual_keywords : Option (List (List Char))
  setting : Option (List Char)
deriving DecidableEq

/-- Embedding of generate_themed_images' fallback prompt construction
(video_generator.py lines 737 to 741): the subjects' visual_keywords (title
when the key is absent) repeated three times, truncated to the image count,
each keyword formatted with the setting and style. -/
def fallback_prompts (subj : StorySubjects) (title style : List Char)
    (numImages : ℕ) : List (List Char) :=
  let keywords := subj.visual_keywords.getD [title]
  let setting := subj.setting.getD []
  ((keywords ++ keywords ++ keywords).take numImages).map
    (fun kw => kw ++ [',', ' '] ++ setting ++ [',', ' '] ++ style)

/-- Embedding of generate_themed_images (video_generator.py lines 715 to 751):
the prompt list is the Groq stage's result unless that is null or empty, in
which case the fallback prompts are used; one image is then generated per
prompt (the backend abstracted as an oracle from prompt to image). -/
def generate_themed_images (subj : StorySubjects) (title style : List Char)
    (groqPrompts : Option (List (List Char))) (numImages : ℕ)
    (imgOracle : List Char → PImage) : List PImage :=
  let prompts :=
    if (groqPrompts.getD []) = [] then fallback_prompts subj title style numImages
    else groqPrompts.getD []
  prompts.map imgOracle

/-! Theorems. -/

/-- Claim C1, counterexample: with one chunk and a 10 second audio track,
generate_video assigns the single clip the clamped duration 3.5 seconds, so the
durations do not sum to the audio duration (the gap is 6.5 seconds, far beyond
any floating-point epsilon), and no residual is applied anywhere. -/
theorem alloc_sum_counterexample :
    (shot_durations 10 1).sum = 7 / 2 ∧ ((7 : ℚ) / 2) ≠ 10 := by
  constructor
  · simp [shot_durations, time_per_chunk, MIN_CHUNK_DURATION, MAX_CHUNK_DURATION,
      DEFAULT_CHUNK_DURATION]
    norm_num
  · norm_num

/-- Claim C1, amended: generate_video assigns one duration per chunk, all equal
to the audio duration divided by the chunk count and clamped into the window
from 1.5 to 3.5 seconds; every duration is at least the 1.5 second floor, and
the durations sum to the audio duration exactly when the unclamped quotient
already lies inside the window (there is no rescaling and no residual applied
to the last chunk). -/
theorem alloc_durations_spec (T : ℚ) (n : ℕ) (hn : 0 < n) :
    (shot_durations T n).length = n ∧
    (∀ d ∈ shot_durations T n,
      d = time_per_chunk T n ∧ MIN_CHUNK_DURATION ≤ d ∧ d ≤ MAX_CHUNK_DURATION) ∧
    ((MIN_CHUNK_DURATION ≤ T / n ∧ T / n ≤ MAX_CHUNK_DURATION) →
      (shot_durations T n).sum = T) := by
  have hne : n ≠ 0 := Nat.pos_iff_ne_zero.mp hn
  refine ⟨by simp [shot_durations], ?_, ?_⟩
  · intro d hd
    have hdv : d = time_per_chunk T n := List.eq_of_mem_replicate hd
    subst hdv
    refine ⟨rfl, le_max_left _ _, ?_⟩
    have hmm : MIN_CHUNK_DURATION ≤ MAX_CHUNK_DURATION := by
      norm_num [MIN_CHUNK_DURATION, MAX_CHUNK_DURATION]
    exact max_le hmm (min_le_left _ _)
  · rintro ⟨h1, h2⟩
    have htp : time_per_chunk T n = T / n := by
      unfold time_per_chunk
      rw [if_pos hne]
      simp only [min_eq_right h2, max_eq_right h1]
    rw [shot_durations, htp, List.sum_replicate, nsmul_eq_mul]
    rw [mul_div_cancel₀]
    exact_mod_cast Nat.cast_ne_zero.mpr hne

/-- Claim C1, witness for the amended theorem at audio duration 8 and four
chunks, where the quotient 2 lies inside the clamping window. -/
theorem alloc_durations_spec_witness :
    0 < 4 ∧ (shot_durations 8 4).sum = 8 :=
  ⟨by norm_num,
   (alloc_durations_spec 8 4 (by norm_num)).2.2
     (by norm_num [MIN_CHUNK_DURATION, MAX_CHUNK_DURATION])⟩

/-- Claim C3: evaluating the clip-assembly of generate_video on a concrete run
(seven chunks, ten themed images, a 15 second track) shows that the first clip
of the timeline is backed by themed image 0 with the same clamped per-chunk
duration as every other clip, and that no clip of the timeline is backed by
the dedicated hook image: create_hook_clip is never invoked by
generate_video. -/
theorem first_clip_not_hook_eval :
    (generate_video_clips 7 10 15).head? =
      some ⟨ImageSource.themed 0, time_per_chunk 15 7⟩ ∧
    (generate_video_clips 7 10 15).all
      (fun s => match s.src with | ImageSource.hookImage => false | _ => true) = true := by
  constructor
  · rfl
  · decide

/-- Claim C4, counterexample: when generate_themed_images raises (failure point
atImages), the audio handle has been opened and the temporary audio file
created, yet the run exits with neither released and the cleanup block never
executed — the cleanup is not unconditional. -/
theorem cleanup_skipped_counterexample :
    (generate_video_run FailPoint.atImages).audioOpened = true ∧
    (generate_video_run FailPoint.atImages).audioClosed = false ∧
    (generate_video_run FailPoint.atImages).tempCreated = true ∧
    (generate_video_run FailPoint.atImages).tempDeleted = false ∧
    (generate_video_run FailPoint.atImages).cleanupRuns = 0 := by
  decide

/-- Claim C4, amended: the cleanup block (audio handle, composite handle, every
clip handle, temporary audio file) runs exactly once on precisely the paths
that reach the rendering step — success and render failure; an exception
raised after the audio handle is opened but before rendering (image
generation, chunking, clip building, concatenation) exits with the audio
handle and temporary audio file unreleased. -/
theorem cleanup_render_scope :
    ∀ fp : FailPoint,
      ((generate_video_run fp).cleanupRuns = 1 ↔
        (fp = FailPoint.noFail ∨ fp = FailPoint.atRender)) ∧
      ((generate_video_run fp).audioClosed = true ∧
          (generate_video_run fp).tempDeleted = true ∧
          (generate_video_run fp).clipsClosed = true ∧
          (generate_video_run fp).compositeClosed = true ↔
        (fp = FailPoint.noFail ∨ fp = FailPoint.atRender)) ∧
      ((generate_video_run fp).audioOpened = true ∧
          (generate_video_run fp).audioClosed = false ↔
        (fp = FailPoint.atImages ∨ fp = FailPoint.atChunking ∨
         fp = FailPoint.atClipBuild ∨ fp = FailPoint.atConcat)) := by
  intro fp
  cases fp <;> decide

/-- Claim C5, counterexample: with a credential configured and the backend
returning a 512 by 512 grayscale image, generate_image_fal returns that image
resized to canonical dimensions but still grayscale — the result is not a
full-color image (the source never converts the downloaded image's mode). -/
theorem image_mode_counterexample :
    (generate_image_fal true [some ⟨512, 512, ColorMode.grayscale⟩]).mode =
      ColorMode.grayscale ∧
    ColorMode.grayscale ≠ ColorMode.rgb := by
  decide

/-- Claim C5, amended: generate_image_fal is total (never raises) and always
returns an image of exactly the canonical 1080 by 1920 dimensions, for every
credential state and every backend behaviour; with no credential it returns the
procedural gradient unconditionally, and the gradient is a full-color RGB
image.  Only the full-color guarantee on the credentialed path fails, since the
downloaded image's mode is preserved. -/
theorem image_dims_total :
    ∀ (keyConfigured : Bool) (attempts : List (Option PImage)),
      (generate_image_fal keyConfigured attempts).width = VIDEO_WIDTH ∧
      (generate_image_fal keyConfigured attempts).height = VIDEO_HEIGHT ∧
      generate_image_fal false attempts = create_gradient_background ∧
      create_gradient_background.mode = ColorMode.rgb := by
  intro key att
  refine ⟨?_, ?_, rfl, rfl⟩ <;>
  · cases key
    · rfl
    · unfold generate_image_fal
      simp only [Bool.true_eq_false, if_neg, reduceIte]
      cases (att.take RETRY_ATTEMPTS).findSome? id <;> rfl

/-- Claim C6, counterexample: a provider response that decodes to a JSON object
missing the required key tldr is not treated as a failure: parse_response
returns a result with tldr defaulted to the empty string, and the chain stops
at the first provider instead of advancing. -/
theorem missing_key_defaulted_counterexample :
    provider_attempt
        (ProviderResponse.response (some ⟨none, some [['b']], some ['s'], some [['h']]⟩)) =
      Except.ok ⟨[], [['b']], ['s'], [['h']]⟩ ∧
    (summarize_article
        (ProviderResponse.response (some ⟨none, some [['b']], some ['s'], some [['h']]⟩))
        (ProviderResponse.netError []) (ProviderResponse.netError [])
        (ProviderResponse.netError [])).2 = [Provider.openrouter] := by
  exact ⟨rfl, rfl⟩

/-- Claim C6, amended: a response whose extracted JSON decodes successfully is
always a success for its provider, with every missing required key silently
defaulted (empty string for tldr and video_script, empty list for bullets and
hashtags) and the chain never advancing past it; only network or HTTP errors
and JSON decode failures are recorded as provider failures that advance the
chain. -/
theorem parse_defaults_spec :
    ∀ (j : JsonDoc) (r2 r3 r4 : ProviderResponse) (m : List Char),
      provider_attempt (ProviderResponse.response (some j)) =
        Except.ok ⟨j.tldr.getD [], j.bullets.getD [], j.video_script.getD [],
          j.hashtags.getD []⟩ ∧
      provider_attempt (ProviderResponse.netError m) = Except.error m ∧
      provider_attempt (ProviderResponse.response none) = Except.error jsonDecodeMsg ∧
      (summarize_article (ProviderResponse.response (some j)) r2 r3 r4).2 =
        [Provider.openrouter] := by
  intro j r2 r3 r4 m
  exact ⟨rfl, rfl, rfl, rfl⟩

/-- Claim C2: summarize_article tries OpenRouter, Groq, Mistral, Gemini in this
fixed order; the first provider whose response decodes returns its parsed
output immediately with no later provider invoked; if and only if all four
fail, a single aggregate error is raised whose message list carries exactly one
entry per provider with that provider's recorded error message.  The final
conjunct shows the case split is exhaustive: every provider outcome either
decodes to a JSON object or is one of the failing forms. -/
theorem summarize_chain_order :
    ∀ (j j2 j3 j4 : JsonDoc) (f1 f2 f3 f4 : ProviderFail) (r2 r3 r4 : ProviderResponse),
      (summarize_article (ProviderResponse.response (some j)) r2 r3 r4 =
        (Except.ok ⟨j.tldr.getD [], j.bullets.getD [], j.video_script.getD [],
          j.hashtags.getD []⟩, [Provider.openrouter])) ∧
      (summarize_article f1.toResponse (ProviderResponse.response (some j2)) r3 r4 =
        (Except.ok ⟨j2.tldr.getD [], j2.bullets.getD [], j2.video_script.getD [],
          j2.hashtags.getD []⟩, [Provider.openrouter, Provider.groq])) ∧
      (summarize_article f1.toResponse f2.toResponse
          (ProviderResponse.response (some j3)) r4 =
        (Except.ok ⟨j3.tldr.getD [], j3.bullets.getD [], j3.video_script.getD [],
          j3.hashtags.getD []⟩,
         [Provider.openrouter, Provider.groq, Provider.mistral])) ∧
      (summarize_article f1.toResponse f2.toResponse f3.toResponse
          (ProviderResponse.response (some j4)) =
        (Except.ok ⟨j4.tldr.getD [], j4.bullets.getD [], j4.video_script.getD [],
          j4.hashtags.getD []⟩,
         [Provider.openrouter, Provider.groq, Provider.mistral, Provider.gemini])) ∧
      (summarize_article f1.toResponse f2.toResponse f3.toResponse f4.toResponse =
        (Except.error
           [(Provider.openrouter, f1.msg), (Provider.groq, f2.msg),
            (Provider.mistral, f3.msg), (Provider.gemini, f4.msg)],
         [Provider.openrouter, Provider.groq, Provider.mistral, Provider.gemini])) ∧
      (∀ r : ProviderResponse,
        (∃ jj, r = ProviderResponse.response (some jj)) ∨
        (∃ f : ProviderFail, r = f.toResponse)) := by
  intro j j2 j3 j4 f1 f2 f3 f4 r2 r3 r4
  refine ⟨rfl, ?_, ?_, ?_, ?_, ?_⟩
  · cases f1 <;> rfl
  · cases f1 <;> cases f2 <;> rfl
  · cases f1 <;> cases f2 <;> cases f3 <;> rfl
  · cases f1 <;> cases f2 <;> cases f3 <;> cases f4 <;> rfl
  · intro r
    rcases r with m | doc
    · exact Or.inr ⟨ProviderFail.net m, rfl⟩
    · rcases doc with _ | jj
      · exact Or.inr ⟨ProviderFail.badJson, rfl⟩
      · exact Or.inl ⟨jj, rfl⟩

/-- Claim C7, counterexample: with keywords present and the first response
parsing to a list that contains a prompt with none of the keywords but has
fewer entries than requested, generate_image_prompts_with_groq returns null
after the single initial call — no retry is issued, contradicting the claim
that such a response always triggers exactly one retry. -/
theorem short_response_no_retry_counterexample :
    generate_image_prompts_with_groq true 2 [['i', 'c', 'e']]
        (some [some ['a', ' ', 's', 'u', 'n', 's', 'e', 't']]) none =
      (none, [initialCall]) := by
  decide

/-- Claim C7, amended: whenever the API key is configured and the first
response parses to a list of at least the requested count whose first
numPrompts entries fail the case-insensitive keyword validation, exactly one
retry is issued — the second call carrying the stricter instruction block and
the lowered 0.5 temperature after the initial 0.7 call — and the function
returns a non-null result precisely when the retry parses, is long enough, and
passes validation (so any retry parse or validation failure yields null). -/
theorem prompt_retry_spec (numPrompts : ℕ) (keywords : List (List Char))
    (ps : List PromptEntry) (resp2 : Option (List PromptEntry))
    (hlen : numPrompts ≤ ps.length)
    (hbad : validate_prompts (ps.take numPrompts) keywords = false) :
    (generate_image_prompts_with_groq true numPrompts keywords (some ps) resp2).2 =
      [initialCall, retryCall] ∧
    (generate_image_prompts_with_groq true numPrompts keywords (some ps) resp2).1.isSome =
      retrySucceeds numPrompts keywords resp2 := by
  have h1 : ¬ (ps.length < numPrompts) := Nat.not_lt.mpr hlen
  unfold generate_image_prompts_with_groq
  simp only [Bool.true_eq_false, reduceIte, if_neg h1, hbad, Bool.false_eq_true]
  rcases resp2 with _ | rs
  · simp [retrySucceeds]
  · by_cases hr : rs.length < numPrompts
    · simp [hr, retrySucceeds]
    · by_cases hv : validate_prompts (rs.take numPrompts) keywords = true
      · simp [hr, hv, retrySucceeds]
      · simp only [Bool.not_eq_true] at hv
        simp [hr, hv, retrySucceeds]

/-- Claim C7, witness for the amended theorem: one keyword, a one-entry first
response failing validation, and a retry that fails to parse. -/
theorem prompt_retry_spec_witness :
    (generate_image_prompts_with_groq true 1 [['i', 'c', 'e']]
        (some [some ['s', 'u', 'n']]) none).2 = [initialCall, retryCall] :=
  (prompt_retry_spec 1 [['i', 'c', 'e']] [some ['s', 'u', 'n']] none
    (by decide) (by decide)).1

/-- Claim C8: evaluating generate_themed_images at a subjects dict whose
visual_keywords value is the empty list, with the prompt stage returning null:
the fallback prompt list is empty (the empty keyword list repeated three times
and truncated is still empty), so zero images are returned — the fallback is
not non-empty and the function does not return at least one image. -/
theorem fallback_empty_eval :
    fallback_prompts ⟨some ['m'], some [], some ['s']⟩ ['T'] ['S'] 10 = [] ∧
    generate_themed_images ⟨some ['m'], some [], some ['s']⟩ ['T'] ['S'] none 10
      (fun _ => create_gradient_background) = [] := by
  exact ⟨rfl, rfl⟩

/-! Lemmas about bracket-tag removal. -/

theorem closeReach_nil : closeReach [] = false := rfl

theorem closeReach_close (cs : List Char) : closeReach (']' :: cs) = true := by
  simp [closeReach, findCloseBracket]

theorem closeReach_nl (cs : List Char) : closeReach ('\n' :: cs) = false := by
  simp [closeReach, findCloseBracket]

theorem closeReach_cons {c : Char} (h1 : ¬ c = ']') (h2 : ¬ c = '\n') (cs : List Char) :
    closeReach (c :: cs) = closeReach cs := by
  simp [closeReach, findCloseBracket, h1, h2]

theorem findCloseBracket_mem {cs rest : List Char} (h : findCloseBracket cs = some rest) :
    ']' ∈ cs := by
  induction cs with
  | nil => simp [findCloseBracket] at h
  | cons c cs ih =>
    by_cases hc : c = ']'
    · subst hc; exact List.mem_cons_self _ _
    · by_cases hn : c = '\n'
      · subst hn; simp [findCloseBracket] at h
      · rw [findCloseBracket, if_neg hc, if_neg hn] at h
        exact List.mem_cons_of_mem _ (ih h)

theorem closeReach_of_mem {cs : List Char} (hm : ']' ∈ cs) (hn : '\n' ∉ cs) :
    closeReach cs = true := by
  induction cs with
  | nil => simp at hm
  | cons c cs ih =>
    by_cases hc : c = ']'
    · subst hc; exact closeReach_close cs
    · have hcn : ¬ c = '\n' := fun h => hn (h ▸ List.mem_cons_self _ _)
      rw [closeReach_cons hc hcn]
      rcases List.mem_cons.mp hm with h | h
      · exact absurd h.symm hc
      · exact ih h (fun hx => hn (List.mem_cons_of_mem _ hx))

theorem closeReach_no_close {l : List Char} (h : ']' ∉ l) : closeReach l = false := by
  induction l with
  | nil => rfl
  | cons c cs ih =>
    have hc : ¬ c = ']' := fun hx => h (hx ▸ List.mem_cons_self _ _)
    by_cases hn : c = '\n'
    · subst hn; exact closeReach_nl cs
    · rw [closeReach_cons hc hn]
      exact ih (fun hx => h (List.mem_cons_of_mem _ hx))

theorem marker_no_close {l : List Char} (h : ']' ∉ l) : containsMarker l = false := by
  induction l with
  | nil => rfl
  | cons c cs ih =>
    have ht : closeReach cs = false :=
      closeReach_no_close (fun hx => h (List.mem_cons_of_mem _ hx))
    rw [containsMarker, ht]
    simp [ih (fun hx => h (List.mem_cons_of_mem _ hx))]

theorem closeReach_append_nl {xs ys : List Char} (h : ']' ∉ xs) :
    closeReach (xs ++ '\n' :: ys) = false := by
  induction xs with
  | nil => exact closeReach_nl ys
  | cons c cs ih =>
    have hc : ¬ c = ']' := fun hx => h (hx ▸ List.mem_cons_self _ _)
    by_cases hn : c = '\n'
    · subst hn; exact closeReach_nl _
    · rw [List.cons_append, closeReach_cons hc hn]
      exact ih (fun hx => h (List.mem_cons_of_mem _ hx))

theorem marker_append_nl {xs ys : List Char} (h : ']' ∉ xs) :
    containsMarker (xs ++ '\n' :: ys) = containsMarker ys := by
  induction xs with
  | nil =>
    rw [List.nil_append, containsMarker]
    simp
  | cons c cs ih =>
    rw [List.cons_append, containsMarker,
      closeReach_append_nl (fun hx => h (List.mem_cons_of_mem _ hx)),
      ih (fun hx => h (List.mem_cons_of_mem _ hx))]
    simp

theorem rbtAux_clean (l : List Char) :
    ∀ st : Option (List Char),
      (∀ buf, st = some buf → ']' ∉ buf ∧ '\n' ∉ buf) →
      containsMarker (rbtAux st l) = false ∧
        (closeReach l = false → closeReach (rbtAux st l) = false) := by
  induction l with
  | nil =>
    intro st hst
    rcases st with _ | buf
    · exact ⟨rfl, fun _ => rfl⟩
    · obtain ⟨hb1, hb2⟩ := hst buf rfl
      have hnc : ']' ∉ '[' :: buf.reverse := by
        intro hx
        rcases List.mem_cons.mp hx with h | h
        · exact absurd h.symm (by decide)
        · exact hb1 (List.mem_reverse.mp h)
      exact ⟨marker_no_close hnc, fun _ => closeReach_no_close hnc⟩
  | cons c cs ih =>
    intro st hst
    rcases st with _ | buf
    · by_cases hc : c = '['
      · subst hc
        have heq : rbtAux none ('[' :: cs) = rbtAux (some []) cs := by
          rw [rbtAux]; simp
        rw [heq]
        have hrec := ih (some []) (by intro buf hb; cases hb; simp)
        refine ⟨hrec.1, fun h => ?_⟩
        rw [closeReach_cons (by decide) (by decide)] at h
        exact hrec.2 h
      · have heq : rbtAux none (c :: cs) = c :: rbtAux none cs := by
          rw [rbtAux]; simp [hc]
        rw [heq]
        have hrec := ih none (by intro buf hb; cases hb)
        constructor
        · rw [containsMarker]
          simp [hc, hrec.1]
        · intro h
          by_cases hcc : c = ']'
          · subst hcc; rw [closeReach_close] at h; cases h
          · by_cases hn : c = '\n'
            · subst hn; exact closeReach_nl _
            · rw [closeReach_cons hcc hn] at h ⊢
              exact hrec.2 h
    · obtain ⟨hb1, hb2⟩ := hst buf rfl
      by_cases hc : c = ']'
      · subst hc
        have heq : rbtAux (some buf) (']' :: cs) = rbtAux none cs := by
          rw [rbtAux]; simp
        rw [heq]
        have hrec := ih none (by intro buf hb; cases hb)
        refine ⟨hrec.1, fun h => ?_⟩
        rw [closeReach_close] at h; cases h
      · by_cases hn : c = '\n'
        · subst hn
          have heq : rbtAux (some buf) ('\n' :: cs) =
              ('[' :: buf.reverse) ++ '\n' :: rbtAux none cs := by
            rw [rbtAux]; simp
          rw [heq]
          have hrec := ih none (by intro buf hb; cases hb)
          have hnc : ']' ∉ '[' :: buf.reverse := by
            intro hx
            rcases List.mem_cons.mp hx with h | h
            · exact absurd h.symm (by decide)
            · exact hb1 (List.mem_reverse.mp h)
          constructor
          · rw [marker_append_nl hnc]
            exact hrec.1
          · intro _
            exact closeReach_append_nl hnc
        · have heq : rbtAux (some buf) (c :: cs) = rbtAux (some (c :: buf)) cs := by
            rw [rbtAux]; simp [hc, hn]
          rw [heq]
          have hinv : ∀ b, some (c :: buf) = some b → ']' ∉ b ∧ '\n' ∉ b := by
            intro b hb
            cases hb
            constructor
            · intro hx
              rcases List.mem_cons.mp hx with h | h
              · exact hc h.symm
              · exact hb1 h
            · intro hx
              rcases List.mem_cons.mp hx with h | h
              · exact hn h.symm
              · exact hb2 h
          have hrec := ih (some (c :: buf)) hinv
          refine ⟨hrec.1, fun h => ?_⟩
          rw [closeReach_cons hc hn] at h
          exact hrec.2 h

theorem removeBracketTags_marker_free (l : List Char) :
    containsMarker (removeBracketTags l) = false :=
  (rbtAux_clean l none (by intro buf hb; cases hb)).1

theorem rbtAux_no_nl (l : List Char) :
    ∀ st : Option (List Char),
      '\n' ∉ l →
      (∀ buf, st = some buf → '\n' ∉ buf) →
      '\n' ∉ rbtAux st l := by
  induction l with
  | nil =>
    intro st hl hst
    rcases st with _ | buf
    · simp [rbtAux]
    · intro hx
      rcases List.mem_cons.mp hx with h | h
      · exact absurd h (by decide)
      · exact hst buf rfl (List.mem_reverse.mp h)
  | cons c cs ih =>
    intro st hl hst
    have hcn : ¬ c = '\n' := fun h => hl (h ▸ List.mem_cons_self _ _)
    have hcs : '\n' ∉ cs := fun h => hl (List.mem_cons_of_mem _ h)
    rcases st with _ | buf
    · by_cases hc : c = '['
      · subst hc
        have heq : rbtAux none ('[' :: cs) = rbtAux (some []) cs := by
          rw [rbtAux]; simp
        rw [heq]
        exact ih (some []) hcs (by intro buf hb; cases hb; simp)
      · have heq : rbtAux none (c :: cs) = c :: rbtAux none cs := by
          rw [rbtAux]; simp [hc]
        rw [heq]
        intro hx
        rcases List.mem_cons.mp hx with h | h
        · exact hcn h.symm
        · exact ih none hcs (by intro buf hb; cases hb) h
    · by_cases hc : c = ']'
      · subst hc
        have heq : rbtAux (some buf) (']' :: cs) = rbtAux none cs := by
          rw [rbtAux]; simp
        rw [heq]
        exact ih none hcs (by intro buf hb; cases hb)
      · have heq : rbtAux (some buf) (c :: cs) = rbtAux (some (c :: buf)) cs := by
          rw [rbtAux]; simp [hc, hcn]
        rw [heq]
        refine ih (some (c :: buf)) hcs ?_
        intro b hb
        cases hb
        intro hx
        rcases List.mem_cons.mp hx with h | h
        · exact hcn h.symm
        · exact hst buf rfl h

theorem removeBracketTags_no_nl {l : List Char} (h : '\n' ∉ l) :
    '\n' ∉ removeBracketTags l :=
  rbtAux_no_nl l none h (by intro buf hb; cases hb)

theorem tagsOneLine_tail {c : Char} {cs : List Char} (h : tagsOneLine (c :: cs) = true) :
    tagsOneLine cs = true := by
  simp only [tagsOneLine, Bool.and_eq_true] at h
  exact h.2

theorem tagsOneLine_head {cs : List Char} (h : tagsOneLine ('[' :: cs) = true) :
    (findCloseBracket cs).isSome = true ∨ cs.any (fun d => d = ']') = false := by
  simp only [tagsOneLine, Bool.and_eq_true] at h
  have h1 := h.1
  rw [if_pos trivial, Bool.or_eq_true] at h1
  rcases h1 with h2 | h2
  · exact Or.inl h2
  · exact Or.inr (by simpa using h2)

theorem tagsOneLine_of_no_nl {s : List Char} (h : '\n' ∉ s) : tagsOneLine s = true := by
  induction s with
  | nil => rfl
  | cons c cs ih =>
    have hcs : '\n' ∉ cs := fun hx => h (List.mem_cons_of_mem _ hx)
    simp only [tagsOneLine, Bool.and_eq_true]
    refine ⟨?_, ih hcs⟩
    by_cases hc : c = '['
    · rw [if_pos hc]
      cases hx : cs.any (fun d => d = ']') with
      | false => simp
      | true =>
        simp only [List.any_eq_true, decide_eq_true_eq] at hx
        obtain ⟨x, hxm, hxe⟩ := hx
        subst hxe
        have hcr := closeReach_of_mem hxm hcs
        simp only [closeReach] at hcr
        rw [hcr]
        simp
    · rw [if_neg hc]

theorem rbtAux_no_close : ∀ (l : List Char) (st : Option (List Char)), ']' ∉ l →
    (∀ buf, st = some buf → ']' ∉ buf) → ']' ∉ rbtAux st l := by
  intro l
  induction l with
  | nil =>
    intro st hl hst
    rcases st with _ | buf
    · simp [rbtAux]
    · intro hx
      rcases List.mem_cons.mp hx with h | h
      · exact absurd h (by decide)
      · exact hst buf rfl (List.mem_reverse.mp h)
  | cons c cs ih =>
    intro st hl hst
    have hcc : ¬ c = ']' := fun h => hl (h ▸ List.mem_cons_self _ _)
    have hcs : ']' ∉ cs := fun h => hl (List.mem_cons_of_mem _ h)
    rcases st with _ | buf
    · by_cases hc : c = '['
      · subst hc
        have heq : rbtAux none ('[' :: cs) = rbtAux (some []) cs := by
          rw [rbtAux]; simp
        rw [heq]
        exact ih (some []) hcs (by intro buf hb; cases hb; simp)
      · have heq : rbtAux none (c :: cs) = c :: rbtAux none cs := by
          rw [rbtAux]; simp [hc]
        rw [heq]
        intro hx
        rcases List.mem_cons.mp hx with h | h
        · exact hcc h.symm
        · exact ih none hcs (by intro buf hb; cases hb) h
    · by_cases hn : c = '\n'
      · subst hn
        have heq : rbtAux (some buf) ('\n' :: cs) =
            ('[' :: buf.reverse) ++ '\n' :: rbtAux none cs := by
          rw [rbtAux]; simp
        rw [heq]
        intro hx
        rcases List.mem_append.mp hx with h | h
        · rcases List.mem_cons.mp h with h1 | h1
          · exact absurd h1 (by decide)
          · exact hst buf rfl (List.mem_reverse.mp h1)
        · rcases List.mem_cons.mp h with h1 | h1
          · exact absurd h1 (by decide)
          · exact ih none hcs (by intro buf hb; cases hb) h1
      · have heq : rbtAux (some buf) (c :: cs) = rbtAux (some (c :: buf)) cs := by
          rw [rbtAux]; simp [hcc, hn]
        rw [heq]
        refine ih (some (c :: buf)) hcs ?_
        intro b hb
        cases hb
        intro hx
        rcases List.mem_cons.mp hx with h | h
        · exact hcc h.symm
        · exact hst buf rfl h

theorem hasOBC_no_close {t : List Char} (h : ']' ∉ t) : hasOBC t = false := by
  induction t with
  | nil => rfl
  | cons c cs ih =>
    have hcs : ']' ∉ cs := fun hx => h (List.mem_cons_of_mem _ hx)
    have hany : cs.any (fun d => d = ']') = false := by
      cases hx : cs.any (fun d => d = ']') with
      | false => rfl
      | true =>
        exfalso
        simp only [List.any_eq_true, decide_eq_true_eq] at hx
        obtain ⟨x, hxm, hxe⟩ := hx
        exact hcs (hxe ▸ hxm)
    simp [hasOBC, hany, ih hcs]

theorem rbtAux_no_OBC : ∀ (l : List Char) (st : Option (List Char)),
    (match st with
     | none => tagsOneLine l = true
     | some buf => ']' ∉ buf ∧
         (((findCloseBracket l).isSome = true ∧ tagsOneLine l = true) ∨ ']' ∉ l)) →
    hasOBC (rbtAux st l) = false := by
  intro l
  induction l with
  | nil =>
    intro st hst
    rcases st with _ | buf
    · rfl
    · obtain ⟨hb, _⟩ := hst
      apply hasOBC_no_close
      intro hx
      rcases List.mem_cons.mp hx with h | h
      · exact absurd h (by decide)
      · exact hb (List.mem_reverse.mp h)
  | cons c cs ih =>
    intro st hst
    rcases st with _ | buf
    · have htl : tagsOneLine cs = true := tagsOneLine_tail hst
      by_cases hc : c = '['
      · subst hc
        have heq : rbtAux none ('[' :: cs) = rbtAux (some []) cs := by
          rw [rbtAux]; simp
        rw [heq]
        apply ih (some [])
        refine ⟨by simp, ?_⟩
        rcases tagsOneLine_head hst with h | h
        · exact Or.inl ⟨h, htl⟩
        · refine Or.inr ?_
          intro hx
          have hany : cs.any (fun d => d = ']') = true := by
            simp only [List.any_eq_true, decide_eq_true_eq]
            exact ⟨']', hx, rfl⟩
          rw [h] at hany
          cases hany
      · have heq : rbtAux none (c :: cs) = c :: rbtAux none cs := by
          rw [rbtAux]; simp [hc]
        rw [heq]
        simp [hasOBC, hc, ih none htl]
    · obtain ⟨hb, hinv⟩ := hst
      by_cases hc : c = ']'
      · subst hc
        rcases hinv with ⟨_, htl⟩ | hnc
        · have heq : rbtAux (some buf) (']' :: cs) = rbtAux none cs := by
            rw [rbtAux]; simp
          rw [heq]
          exact ih none (tagsOneLine_tail htl)
        · exact absurd (List.mem_cons_self _ _) hnc
      · by_cases hn : c = '\n'
        · subst hn
          rcases hinv with ⟨hiso, _⟩ | hnc
          · rw [show findCloseBracket ('\n' :: cs) = none from by
              simp [findCloseBracket]] at hiso
            cases hiso
          · have heq : rbtAux (some buf) ('\n' :: cs) =
                ('[' :: buf.reverse) ++ '\n' :: rbtAux none cs := by
              rw [rbtAux]; simp
            rw [heq]
            apply hasOBC_no_close
            intro hx
            have hncs : ']' ∉ cs := fun h => hnc (List.mem_cons_of_mem _ h)
            rcases List.mem_append.mp hx with h | h
            · rcases List.mem_cons.mp h with h1 | h1
              · exact absurd h1 (by decide)
              · exact hb (List.mem_reverse.mp h1)
            · rcases List.mem_cons.mp h with h1 | h1
              · exact absurd h1 (by decide)
              · exact rbtAux_no_close cs none hncs (by intro b hb2; cases hb2) h1
        · have heq : rbtAux (some buf) (c :: cs) = rbtAux (some (c :: buf)) cs := by
            rw [rbtAux]; simp [hc, hn]
          rw [heq]
          apply ih (some (c :: buf))
          constructor
          · intro hx
            rcases List.mem_cons.mp hx with h | h
            · exact hc h.symm
            · exact hb h
          · rcases hinv with ⟨hiso, htl⟩ | hnc
            · refine Or.inl ⟨?_, tagsOneLine_tail htl⟩
              rw [show findCloseBracket (c :: cs) = findCloseBracket cs from by
                simp [findCloseBracket, hc, hn]] at hiso
              exact hiso
            · exact Or.inr (fun h => hnc (List.mem_cons_of_mem _ h))

theorem removeBracketTags_no_OBC {s : List Char} (h : tagsOneLine s = true) :
    hasOBC (removeBracketTags s) = false :=
  rbtAux_no_OBC s none h

/-! Lemmas about whitespace collapsing. -/

theorem subWsRuns_nonws {c : Char} (h : isWsChar c = false) (cs : List Char) :
    subWsRuns (c :: cs) = c :: subWsRuns cs := by
  rw [subWsRuns.eq_def]; simp [h]

theorem subWsRuns_ws_nil {c : Char} (h : isWsChar c = true) : subWsRuns [c] = [' '] := by
  rw [subWsRuns.eq_def]; simp [h]

theorem subWsRuns_ws_ws {c c2 : Char} (h : isWsChar c = true) (h2 : isWsChar c2 = true)
    (cs : List Char) : subWsRuns (c :: c2 :: cs) = subWsRuns (c2 :: cs) := by
  rw [subWsRuns.eq_def]; simp [h, h2]

theorem subWsRuns_ws_nonws {c c2 : Char} (h : isWsChar c = true) (h2 : isWsChar c2 = false)
    (cs : List Char) : subWsRuns (c :: c2 :: cs) = ' ' :: subWsRuns (c2 :: cs) := by
  rw [subWsRuns.eq_def]; simp [h, h2]

theorem mem_subWsRuns {x : Char} : ∀ {t : List Char}, x ∈ subWsRuns t → x = ' ' ∨ x ∈ t := by
  intro t
  induction t using subWsRuns.induct with
  | case1 => intro h; simp [subWsRuns] at h
  | case2 c h =>
    rw [subWsRuns_ws_nil h]
    intro hx
    left
    simpa using hx
  | case3 c h c2 tail h2 ih =>
    rw [subWsRuns_ws_ws h h2]
    intro hx
    rcases ih hx with h' | h'
    · exact Or.inl h'
    · exact Or.inr (List.mem_cons_of_mem _ h')
  | case4 c h c2 tail h2 ih =>
    have h2' : isWsChar c2 = false := by simpa using h2
    rw [subWsRuns_ws_nonws h h2']
    intro hx
    rcases List.mem_cons.mp hx with h' | h'
    · exact Or.inl h'
    · rcases ih h' with h'' | h''
      · exact Or.inl h''
      · exact Or.inr (List.mem_cons_of_mem _ h'')
  | case5 c tail h ih =>
    have h' : isWsChar c = false := by simpa using h
    rw [subWsRuns_nonws h']
    intro hx
    rcases List.mem_cons.mp hx with h'' | h''
    · exact Or.inr (h'' ▸ List.mem_cons_self _ _)
    · rcases ih h'' with h3 | h3
      · exact Or.inl h3
      · exact Or.inr (List.mem_cons_of_mem _ h3)

theorem subWsRuns_ws_head {cs : List Char} :
    ∀ c : Char, isWsChar c = true → ∃ r, subWsRuns (c :: cs) = ' ' :: r := by
  induction cs with
  | nil => exact fun c h => ⟨[], subWsRuns_ws_nil h⟩
  | cons c2 cs ih =>
    intro c h
    by_cases h2 : isWsChar c2 = true
    · rw [subWsRuns_ws_ws h h2]
      exact ih c2 h2
    · have h2' : isWsChar c2 = false := by simpa using h2
      exact ⟨subWsRuns (c2 :: cs), subWsRuns_ws_nonws h h2' cs⟩

/-! Lemmas about the whitespace-free bracket-span predicate. -/

theorem nonWsReach_to_closeReach : ∀ {l : List Char}, nonWsReach l = true → closeReach l = true := by
  intro l
  induction l with
  | nil => intro h; simp [nonWsReach] at h
  | cons c cs ih =>
    intro h
    by_cases hc : c = ']'
    · subst hc; exact closeReach_close cs
    · simp only [nonWsReach, if_neg hc] at h
      by_cases hw : isWsChar c = true
      · rw [if_pos hw] at h; cases h
      · rw [if_neg hw] at h
        have hn : ¬ c = '\n' := fun he => hw (by subst he; decide)
        rw [closeReach_cons hc hn]
        exact ih h

theorem containsTight_to_marker : ∀ {l : List Char},
    containsTight l = true → containsMarker l = true := by
  intro l
  induction l with
  | nil => intro h; cases h
  | cons c cs ih =>
    intro h
    simp only [containsTight, Bool.or_eq_true, Bool.and_eq_true, decide_eq_true_eq] at h
    simp only [containsMarker, Bool.or_eq_true, Bool.and_eq_true, decide_eq_true_eq]
    rcases h with ⟨hc, hr⟩ | h
    · exact Or.inl ⟨hc, nonWsReach_to_closeReach hr⟩
    · exact Or.inr (ih h)

theorem nonWsReach_append {v : List Char} : ∀ {l : List Char},
    nonWsReach l = true → nonWsReach (l ++ v) = true := by
  intro l
  induction l with
  | nil => intro h; cases h
  | cons c cs ih =>
    intro h
    by_cases hc : c = ']'
    · subst hc; simp [nonWsReach]
    · simp only [nonWsReach, if_neg hc] at h
      by_cases hw : isWsChar c = true
      · rw [if_pos hw] at h; cases h
      · rw [if_neg hw] at h
        rw [List.cons_append]
        simp only [nonWsReach, if_neg hc, if_neg hw]
        exact ih h

theorem containsTight_append_of_left {v : List Char} : ∀ {y : List Char},
    containsTight y = true → containsTight (y ++ v) = true := by
  intro y
  induction y with
  | nil => intro h; cases h
  | cons c cs ih =>
    intro h
    simp only [containsTight, Bool.or_eq_true, Bool.and_eq_true] at h
    rw [List.cons_append]
    simp only [containsTight, Bool.or_eq_true, Bool.and_eq_true]
    rcases h with ⟨hc, hr⟩ | h
    · exact Or.inl ⟨hc, nonWsReach_append hr⟩
    · exact Or.inr (ih h)

theorem containsTight_append_of_right {y : List Char} : ∀ {u : List Char},
    containsTight y = true → containsTight (u ++ y) = true := by
  intro u
  induction u with
  | nil => intro h; exact h
  | cons c cs ih =>
    intro h
    rw [List.cons_append]
    simp only [containsTight, Bool.or_eq_true]
    exact Or.inr (ih h)

theorem nonWsReach_decomp {b : List Char} : ∀ (m : List Char),
    (∀ c ∈ m, isWsChar c = false) → nonWsReach (m ++ ']' :: b) = true := by
  intro m
  induction m with
  | nil => intro _; simp [nonWsReach]
  | cons c m ih =>
    intro hm
    by_cases hc : c = ']'
    · subst hc; simp [nonWsReach]
    · rw [List.cons_append]
      simp only [nonWsReach, if_neg hc, hm c (List.mem_cons_self _ _)]
      exact ih (fun x hx => hm x (List.mem_cons_of_mem _ hx))

theorem tight_of_decomp {m b : List Char} (hm : ∀ c ∈ m, isWsChar c = false) :
    ∀ (a l : List Char), l = a ++ '[' :: (m ++ ']' :: b) → containsTight l = true := by
  intro a
  induction a with
  | nil =>
    intro l hl
    subst hl
    rw [List.nil_append]
    simp only [containsTight, Bool.or_eq_true, Bool.and_eq_true, decide_eq_true_eq]
    exact Or.inl ⟨trivial, nonWsReach_decomp m hm⟩
  | cons x a ih =>
    intro l hl
    subst hl
    rw [List.cons_append]
    simp only [containsTight, Bool.or_eq_true]
    exact Or.inr (ih _ rfl)

/-! Transfer of whitespace-free bracket spans backwards through collapsing. -/

theorem nonWsReach_subWsRuns : ∀ {t : List Char},
    nonWsReach (subWsRuns t) = true → nonWsReach t = true := by
  intro t
  induction t using subWsRuns.induct with
  | case1 => intro h; cases h
  | case2 c h =>
    rw [subWsRuns_ws_nil h]
    intro hx
    simp [nonWsReach] at hx
  | case3 c h c2 tail h2 ih =>
    rw [subWsRuns_ws_ws h h2]
    intro hx
    obtain ⟨r, hr⟩ := subWsRuns_ws_head c2 h2
    rw [hr] at hx
    simp [nonWsReach, isWsChar] at hx
  | case4 c h c2 tail h2 ih =>
    have h2' : isWsChar c2 = false := by simpa using h2
    rw [subWsRuns_ws_nonws h h2']
    intro hx
    simp [nonWsReach, isWsChar] at hx
  | case5 c tail h ih =>
    have h' : isWsChar c = false := by simpa using h
    rw [subWsRuns_nonws h']
    intro hx
    by_cases hc : c = ']'
    · subst hc; simp [nonWsReach]
    · simp only [nonWsReach, if_neg hc, h', if_false] at hx ⊢
      exact ih hx

theorem containsTight_cons_tail {c : Char} {cs : List Char} (h : containsTight cs = true) :
    containsTight (c :: cs) = true := by
  simp only [containsTight, Bool.or_eq_true]
  exact Or.inr h

theorem containsTight_subWsRuns : ∀ {t : List Char},
    containsTight (subWsRuns t) = true → containsTight t = true := by
  intro t
  induction t using subWsRuns.induct with
  | case1 => intro h; cases h
  | case2 c h =>
    rw [subWsRuns_ws_nil h]
    intro hx
    simp [containsTight, nonWsReach] at hx
  | case3 c h c2 tail h2 ih =>
    rw [subWsRuns_ws_ws h h2]
    intro hx
    exact containsTight_cons_tail (ih hx)
  | case4 c h c2 tail h2 ih =>
    have h2' : isWsChar c2 = false := by simpa using h2
    rw [subWsRuns_ws_nonws h h2']
    intro hx
    simp only [containsTight, Bool.or_eq_true, Bool.and_eq_true, decide_eq_true_eq] at hx
    rcases hx with ⟨hsp, _⟩ | hx
    · exact absurd hsp (by decide)
    · exact containsTight_cons_tail (ih hx)
  | case5 c tail h ih =>
    have h' : isWsChar c = false := by simpa using h
    rw [subWsRuns_nonws h']
    intro hx
    simp only [containsTight, Bool.or_eq_true, Bool.and_eq_true, decide_eq_true_eq] at hx ⊢
    rcases hx with ⟨hc, hr⟩ | hx
    · exact Or.inl ⟨hc, nonWsReach_subWsRuns hr⟩
    · exact Or.inr (ih hx)

/-! Lemmas about the double-whitespace predicate. -/

theorem noDoubleWs_cons_tail {a : Char} {l : List Char} :
    noDoubleWs (a :: l) = true → noDoubleWs l = true := by
  cases l with
  | nil => intro _; rfl
  | cons b r =>
    intro h
    simp only [noDoubleWs, Bool.and_eq_true] at h
    exact h.2

theorem noDoubleWs_subWsRuns (t : List Char) : noDoubleWs (subWsRuns t) = true := by
  induction t using subWsRuns.induct with
  | case1 => rfl
  | case2 c h => rw [subWsRuns_ws_nil h]; rfl
  | case3 c h c2 tail h2 ih => rw [subWsRuns_ws_ws h h2]; exact ih
  | case4 c h c2 tail h2 ih =>
    have h2' : isWsChar c2 = false := by simpa using h2
    have hx : noDoubleWs (c2 :: subWsRuns (c2 :: tail).tail) = true := by
      rw [← subWsRuns_nonws h2']
      exact ih
    rw [subWsRuns_ws_nonws h h2', subWsRuns_nonws h2']
    simp only [noDoubleWs, Bool.and_eq_true, Bool.not_eq_true']
    constructor
    · simp [h2']
    · rw [← subWsRuns_nonws h2']
      exact ih
  | case5 c tail h ih =>
    have h' : isWsChar c = false := by simpa using h
    rw [subWsRuns_nonws h']
    cases hst : subWsRuns tail with
    | nil => rfl
    | cons x r =>
      rw [hst] at ih
      simp only [noDoubleWs, Bool.and_eq_true, Bool.not_eq_true']
      exact ⟨by simp [h'], ih⟩

theorem noDoubleWs_append_left {y : List Char} : ∀ {u : List Char},
    noDoubleWs (u ++ y) = true → noDoubleWs y = true := by
  intro u
  induction u with
  | nil => intro h; exact h
  | cons a u ih =>
    intro h
    rw [List.cons_append] at h
    exact ih (noDoubleWs_cons_tail h)

theorem noDoubleWs_append_right : ∀ {y v : List Char},
    noDoubleWs (y ++ v) = true → noDoubleWs y = true := by
  intro y
  induction y with
  | nil => intro v _; rfl
  | cons a y ih =>
    intro v h
    cases y with
    | nil => rfl
    | cons b r =>
      rw [List.cons_append, List.cons_append] at h
      simp only [noDoubleWs, Bool.and_eq_true] at h ⊢
      refine ⟨h.1, ?_⟩
      have h2 : noDoubleWs ((b :: r) ++ v) = true := by
        rw [List.cons_append]
        exact h.2
      exact ih h2

/-! Substring decomposition. -/

theorem startsWithB_decomp : ∀ {p l : List Char}, startsWithB p l = true → ∃ t, l = p ++ t := by
  intro p
  induction p with
  | nil => intro l _; exact ⟨l, rfl⟩
  | cons x p ih =>
    intro l h
    cases l with
    | nil => cases h
    | cons c cs =>
      simp only [startsWithB, Bool.and_eq_true, decide_eq_true_eq] at h
      obtain ⟨t, ht⟩ := ih h.2
      refine ⟨t, ?_⟩
      rw [List.cons_append, ← ht, h.1]

theorem containsSub_decomp : ∀ {p l : List Char},
    containsSub p l = true → ∃ u v, l = u ++ p ++ v := by
  intro p l
  induction l with
  | nil =>
    intro h
    simp only [containsSub] at h
    obtain ⟨t, ht⟩ := startsWithB_decomp h
    exact ⟨[], t, by simpa using ht⟩
  | cons c cs ih =>
    intro h
    simp only [containsSub, Bool.or_eq_true] at h
    rcases h with h | h
    · obtain ⟨t, ht⟩ := startsWithB_decomp h
      exact ⟨[], t, by simpa using ht⟩
    · obtain ⟨u, v, huv⟩ := ih h
      exact ⟨c :: u, v, by rw [huv]; simp⟩

/-! Decomposition of stripping into an infix. -/

theorem stripWs_decomp (l : List Char) : ∃ a b, l = a ++ stripWs l ++ b := by
  refine ⟨l.takeWhile isWsChar,
    ((l.dropWhile isWsChar).reverse.takeWhile isWsChar).reverse, ?_⟩
  conv_lhs => rw [← List.takeWhile_append_dropWhile (p := isWsChar) (l := l)]
  rw [List.append_assoc]
  congr 1
  have h2 := List.takeWhile_append_dropWhile (p := isWsChar)
    (l := (l.dropWhile isWsChar).reverse)
  calc l.dropWhile isWsChar
      = ((l.dropWhile isWsChar).reverse).reverse := (List.reverse_reverse _).symm
    _ = (List.takeWhile isWsChar (l.dropWhile isWsChar).reverse ++
          List.dropWhile isWsChar (l.dropWhile isWsChar).reverse).reverse := by rw [h2]
    _ = (List.dropWhile isWsChar (l.dropWhile isWsChar).reverse).reverse ++
          (List.takeWhile isWsChar (l.dropWhile isWsChar).reverse).reverse := by
            rw [List.reverse_append]
    _ = stripWs l ++ (List.takeWhile isWsChar (l.dropWhile isWsChar).reverse).reverse := rfl

/-- Helper for claim C10: the cleaned script never contains an opening bracket
followed by a whitespace-free interior and a closing bracket — in particular no
literal structural tag survives cleaning. -/
theorem clean_no_ws_free_tag (s : List Char) (m : List Char)
    (hm : ∀ c ∈ m, isWsChar c = false) :
    containsSub ('[' :: (m ++ [']'])) (clean_script_for_tts s) = false := by
  cases hb : containsSub ('[' :: (m ++ [']'])) (clean_script_for_tts s) with
  | false => rfl
  | true =>
    exfalso
    obtain ⟨u, v, huv⟩ := containsSub_decomp hb
    have hl : clean_script_for_tts s = u ++ '[' :: (m ++ ']' :: v) := by
      rw [huv]; simp
    have ht : containsTight (clean_script_for_tts s) = true :=
      tight_of_decomp hm u _ hl
    rw [clean_script_for_tts] at ht
    obtain ⟨a, b, hab⟩ := stripWs_decomp (subWsRuns (removeBracketTags s))
    have ht2 : containsTight (subWsRuns (removeBracketTags s)) = true := by
      rw [hab, List.append_assoc]
      exact containsTight_append_of_right (containsTight_append_of_left ht)
    have hm4 := containsTight_to_marker (containsTight_subWsRuns ht2)
    rw [removeBracketTags_marker_free] at hm4
    cases hm4

/-! Lemmas about word splitting and joining. -/

theorem splitWsAux_nil (acc : List Char) :
    splitWsAux [] acc = if acc = [] then [] else [acc.reverse] := rfl

theorem splitWsAux_cons (c : Char) (cs acc : List Char) :
    splitWsAux (c :: cs) acc =
      if isWsChar c then
        (if acc = [] then splitWsAux cs [] else acc.reverse :: splitWsAux cs [])
      else splitWsAux cs (c :: acc) := rfl

theorem splitWsAux_words : ∀ (l acc : List Char),
    (∀ c ∈ acc, isWsChar c = false) →
    ∀ w ∈ splitWsAux l acc, w ≠ [] ∧ ∀ c ∈ w, isWsChar c = false := by
  intro l
  induction l with
  | nil =>
    intro acc hacc w hw
    rw [splitWsAux_nil] at hw
    by_cases ha : acc = []
    · rw [if_pos ha] at hw; cases hw
    · rw [if_neg ha] at hw
      have hwa : w = acc.reverse := List.mem_singleton.mp hw
      subst hwa
      exact ⟨by simpa using ha, fun c hc => hacc c (List.mem_reverse.mp hc)⟩
  | cons c cs ih =>
    intro acc hacc w hw
    rw [splitWsAux_cons] at hw
    by_cases hws : isWsChar c = true
    · rw [if_pos hws] at hw
      by_cases ha : acc = []
      · rw [if_pos ha] at hw
        exact ih [] (by simp) w hw
      · rw [if_neg ha] at hw
        rcases List.mem_cons.mp hw with hwa | hw2
        · subst hwa
          exact ⟨by simpa using ha, fun x hx => hacc x (List.mem_reverse.mp hx)⟩
        · exact ih [] (by simp) w hw2
    · rw [if_neg hws] at hw
      refine ih (c :: acc) ?_ w hw
      intro x hx
      rcases List.mem_cons.mp hx with hxc | hx2
      · subst hxc; simpa using hws
      · exact hacc x hx2

theorem splitWs_words (l : List Char) :
    ∀ w ∈ splitWs l, w ≠ [] ∧ ∀ c ∈ w, isWsChar c = false :=
  splitWsAux_words l [] (by simp)

theorem splitWsAux_nonws_prefix : ∀ (w : List Char), (∀ c ∈ w, isWsChar c = false) →
    ∀ (l acc : List Char), splitWsAux (w ++ l) acc = splitWsAux l (w.reverse ++ acc) := by
  intro w
  induction w with
  | nil => intro _ l acc; simp
  | cons c wtl ih =>
    intro hw l acc
    rw [List.cons_append, splitWsAux_cons]
    have hc : isWsChar c = false := hw c (List.mem_cons_self _ _)
    rw [if_neg (by simp [hc])]
    rw [ih (fun x hx => hw x (List.mem_cons_of_mem _ hx)) l (c :: acc)]
    congr 1
    simp [List.reverse_cons, List.append_assoc]

theorem joinSp_cons_ne {w : List Char} {g : List (List Char)} (h : g ≠ []) :
    joinSp (w :: g) = w ++ ' ' :: joinSp g := by
  cases g with
  | nil => exact absurd rfl h
  | cons x gs => rfl

theorem splitWs_joinSp : ∀ {g : List (List Char)},
    (∀ w ∈ g, w ≠ [] ∧ ∀ c ∈ w, isWsChar c = false) → splitWs (joinSp g) = g := by
  intro g
  induction g with
  | nil => intro _; rfl
  | cons w g ih =>
    intro hg
    obtain ⟨hw1, hw2⟩ := hg w (List.mem_cons_self _ _)
    cases g with
    | nil =>
      show splitWs w = [w]
      rw [splitWs]
      have hpre := splitWsAux_nonws_prefix w hw2 [] []
      rw [List.append_nil] at hpre
      rw [hpre, splitWsAux_nil, List.append_nil, if_neg (by simpa using hw1),
        List.reverse_reverse]
    | cons x gs =>
      rw [joinSp_cons_ne (by simp), splitWs,
        splitWsAux_nonws_prefix w hw2 (' ' :: joinSp (x :: gs)) [],
        List.append_nil, splitWsAux_cons, if_pos (by decide),
        if_neg (by simpa using hw1), List.reverse_reverse]
      congr 1
      exact ih (fun v hv => hg v (List.mem_cons_of_mem _ hv))

theorem joinSp_ne_nil {w : List Char} (g : List (List Char)) (hw : w ≠ []) :
    joinSp (w :: g) ≠ [] := by
  cases g with
  | nil => exact hw
  | cons x gs => simp [joinSp]

theorem joinSp_append {B : List (List Char)} (hB : B ≠ []) :
    ∀ (A : List (List Char)), A ≠ [] →
      joinSp (A ++ B) = joinSp A ++ ' ' :: joinSp B := by
  intro A
  induction A with
  | nil => intro h; exact absurd rfl h
  | cons w A ih =>
    intro _
    cases A with
    | nil =>
      rw [List.cons_append, List.nil_append, joinSp_cons_ne hB]
      rfl
    | cons x A2 =>
      rw [List.cons_append, joinSp_cons_ne (by simp : (x :: A2) ++ B ≠ []), ih (by simp),
        show joinSp (w :: x :: A2) = w ++ ' ' :: joinSp (x :: A2) from joinSp_cons_ne (by simp)]
      simp [List.append_assoc]

theorem mem_joinSp {x : Char} : ∀ {g : List (List Char)},
    x ∈ joinSp g → x = ' ' ∨ ∃ w ∈ g, x ∈ w := by
  intro g
  induction g with
  | nil => intro h; cases h
  | cons w g ih =>
    cases g with
    | nil =>
      intro h
      exact Or.inr ⟨w, List.mem_cons_self _ _, h⟩
    | cons y gs =>
      intro h
      rw [joinSp_cons_ne (by simp)] at h
      rcases List.mem_append.mp h with h | h
      · exact Or.inr ⟨w, List.mem_cons_self _ _, h⟩
      · rcases List.mem_cons.mp h with h1 | h2
        · exact Or.inl h1
        · rcases ih h2 with h3 | ⟨v, hv, hxv⟩
          · exact Or.inl h3
          · exact Or.inr ⟨v, List.mem_cons_of_mem _ hv, hxv⟩

theorem splitWsAux_mem_chars : ∀ (l acc w : List Char), w ∈ splitWsAux l acc →
    ∀ x ∈ w, x ∈ acc ∨ x ∈ l := by
  intro l
  induction l with
  | nil =>
    intro acc w hw x hx
    rw [splitWsAux_nil] at hw
    by_cases ha : acc = []
    · rw [if_pos ha] at hw; cases hw
    · rw [if_neg ha] at hw
      have hwa : w = acc.reverse := List.mem_singleton.mp hw
      subst hwa
      exact Or.inl (List.mem_reverse.mp hx)
  | cons c cs ih =>
    intro acc w hw x hx
    rw [splitWsAux_cons] at hw
    by_cases hws : isWsChar c = true
    · rw [if_pos hws] at hw
      by_cases ha : acc = []
      · rw [if_pos ha] at hw
        rcases ih [] w hw x hx with h | h
        · cases h
        · exact Or.inr (List.mem_cons_of_mem _ h)
      · rw [if_neg ha] at hw
        rcases List.mem_cons.mp hw with hwa | hw2
        · subst hwa
          exact Or.inl (List.mem_reverse.mp hx)
        · rcases ih [] w hw2 x hx with h | h
          · cases h
          · exact Or.inr (List.mem_cons_of_mem _ h)
    · rw [if_neg hws] at hw
      rcases ih (c :: acc) w hw x hx with h | h
      · rcases List.mem_cons.mp h with h1 | h2
        · exact Or.inr (h1 ▸ List.mem_cons_self _ _)
        · exact Or.inl h2
      · exact Or.inr (List.mem_cons_of_mem _ h)

/-! Lemmas about the bracket-before-close predicate. -/

theorem hasOBC_cons_tail {c : Char} {cs : List Char} (h : hasOBC cs = true) :
    hasOBC (c :: cs) = true := by
  simp only [hasOBC, Bool.or_eq_true]
  exact Or.inr h

theorem hasOBC_head {c : Char} {cs : List Char} (hc : c = '[') (hm : ']' ∈ cs) :
    hasOBC (c :: cs) = true := by
  simp only [hasOBC, Bool.or_eq_true, Bool.and_eq_true, decide_eq_true_eq]
  refine Or.inl ⟨hc, ?_⟩
  simp only [List.any_eq_true, decide_eq_true_eq]
  exact ⟨']', hm, rfl⟩

theorem hasOBC_cons_elim {c : Char} {cs : List Char} (hc : ¬ c = '[')
    (h : hasOBC (c :: cs) = true) : hasOBC cs = true := by
  simp only [hasOBC, Bool.or_eq_true, Bool.and_eq_true, decide_eq_true_eq] at h
  rcases h with ⟨h1, _⟩ | h
  · exact absurd h1 hc
  · exact h

theorem hasOBC_append_of_left {v : List Char} : ∀ {y : List Char},
    hasOBC y = true → hasOBC (y ++ v) = true := by
  intro y
  induction y with
  | nil => intro h; cases h
  | cons c cs ih =>
    intro h
    simp only [hasOBC, Bool.or_eq_true, Bool.and_eq_true, decide_eq_true_eq] at h
    rw [List.cons_append]
    rcases h with ⟨hc, hany⟩ | h
    · have hmem : ']' ∈ cs := by
        simpa only [List.any_eq_true, decide_eq_true_eq, exists_eq_right] using hany
      exact hasOBC_head hc (List.mem_append_left _ hmem)
    · exact hasOBC_cons_tail (ih h)

theorem hasOBC_append_of_right {y : List Char} : ∀ {u : List Char},
    hasOBC y = true → hasOBC (u ++ y) = true := by
  intro u
  induction u with
  | nil => intro h; exact h
  | cons c cs ih =>
    intro h
    rw [List.cons_append]
    exact hasOBC_cons_tail (ih h)

theorem hasOBC_append_mem {v : List Char} (hv : ']' ∈ v) :
    ∀ (u : List Char), '[' ∈ u → hasOBC (u ++ v) = true := by
  intro u
  induction u with
  | nil => intro h; cases h
  | cons c cs ih =>
    intro hu
    rw [List.cons_append]
    rcases List.mem_cons.mp hu with h | h
    · exact hasOBC_head h.symm (List.mem_append_right _ hv)
    · exact hasOBC_cons_tail (ih h)

theorem hasOBC_append_elim : ∀ {u v : List Char}, hasOBC (u ++ v) = true →
    hasOBC u = true ∨ ('[' ∈ u ∧ ']' ∈ v) ∨ hasOBC v = true := by
  intro u
  induction u with
  | nil => intro v h; exact Or.inr (Or.inr h)
  | cons c cs ih =>
    intro v h
    rw [List.cons_append] at h
    simp only [hasOBC, Bool.or_eq_true, Bool.and_eq_true, decide_eq_true_eq] at h
    rcases h with ⟨hc, hany⟩ | h
    · have hmem : ']' ∈ cs ++ v := by
        simpa only [List.any_eq_true, decide_eq_true_eq, exists_eq_right] using hany
      rcases List.mem_append.mp hmem with h2 | h2
      · exact Or.inl (hasOBC_head hc h2)
      · exact Or.inr (Or.inl ⟨hc ▸ List.mem_cons_self _ _, h2⟩)
    · rcases ih h with h2 | ⟨h2, h3⟩ | h2
      · exact Or.inl (hasOBC_cons_tail h2)
      · exact Or.inr (Or.inl ⟨List.mem_cons_of_mem _ h2, h3⟩)
      · exact Or.inr (Or.inr h2)

theorem hasOBC_subWsRuns : ∀ {t : List Char},
    hasOBC (subWsRuns t) = true → hasOBC t = true := by
  intro t
  induction t using subWsRuns.induct with
  | case1 => intro h; cases h
  | case2 c h =>
    rw [subWsRuns_ws_nil h]
    intro hx
    simp [hasOBC] at hx
  | case3 c h c2 tail h2 ih =>
    rw [subWsRuns_ws_ws h h2]
    intro hx
    exact hasOBC_cons_tail (ih hx)
  | case4 c h c2 tail h2 ih =>
    have h2' : isWsChar c2 = false := by simpa using h2
    rw [subWsRuns_ws_nonws h h2']
    intro hx
    exact hasOBC_cons_tail (ih (hasOBC_cons_elim (by decide) hx))
  | case5 c tail h ih =>
    have h' : isWsChar c = false := by simpa using h
    rw [subWsRuns_nonws h']
    intro hx
    simp only [hasOBC, Bool.or_eq_true, Bool.and_eq_true, decide_eq_true_eq] at hx
    rcases hx with ⟨hc, hany⟩ | hx
    · have hmem : ']' ∈ subWsRuns tail := by
        simpa only [List.any_eq_true, decide_eq_true_eq, exists_eq_right] using hany
      rcases mem_subWsRuns hmem with h1 | h1
      · exact absurd h1 (by decide)
      · exact hasOBC_head hc h1
    · exact hasOBC_cons_tail (ih hx)

theorem containsMarker_to_hasOBC : ∀ {l : List Char},
    containsMarker l = true → hasOBC l = true := by
  intro l
  induction l with
  | nil => intro h; cases h
  | cons c cs ih =>
    intro h
    simp only [containsMarker, Bool.or_eq_true, Bool.and_eq_true, decide_eq_true_eq] at h
    rcases h with ⟨hc, hcr⟩ | h
    · obtain ⟨r, hr⟩ := Option.isSome_iff_exists.mp hcr
      exact hasOBC_head hc (findCloseBracket_mem hr)
    · exact hasOBC_cons_tail (ih h)

theorem hasOBC_to_marker_no_nl : ∀ {l : List Char}, '\n' ∉ l →
    hasOBC l = true → containsMarker l = true := by
  intro l
  induction l with
  | nil => intro _ h; cases h
  | cons c cs ih =>
    intro hnl h
    simp only [hasOBC, Bool.or_eq_true, Bool.and_eq_true, decide_eq_true_eq] at h
    simp only [containsMarker, Bool.or_eq_true, Bool.and_eq_true, decide_eq_true_eq]
    have hcs : '\n' ∉ cs := fun hx => hnl (List.mem_cons_of_mem _ hx)
    rcases h with ⟨hc, hany⟩ | h
    · have hmem : ']' ∈ cs := by
        simpa only [List.any_eq_true, decide_eq_true_eq, exists_eq_right] using hany
      exact Or.inl ⟨hc, closeReach_of_mem hmem hcs⟩
    · exact Or.inr (ih hcs h)

theorem joinSp_splitWsAux_OBC : ∀ (l acc : List Char),
    hasOBC (joinSp (splitWsAux l acc)) = true → hasOBC (acc.reverse ++ l) = true := by
  intro l
  induction l with
  | nil =>
    intro acc h
    rw [splitWsAux_nil] at h
    by_cases ha : acc = []
    · rw [if_pos ha] at h; cases h
    · rw [if_neg ha] at h
      rw [List.append_nil]
      exact h
  | cons c cs ih =>
    intro acc h
    rw [splitWsAux_cons] at h
    by_cases hws : isWsChar c = true
    · rw [if_pos hws] at h
      by_cases ha : acc = []
      · rw [if_pos ha] at h
        subst ha
        have h2 := ih [] h
        simp only [List.reverse_nil, List.nil_append] at h2 ⊢
        exact hasOBC_cons_tail h2
      · rw [if_neg ha] at h
        cases hrest : splitWsAux cs [] with
        | nil =>
          rw [hrest] at h
          exact hasOBC_append_of_left (y := acc.reverse) h
        | cons r rs =>
          rw [hrest, joinSp_cons_ne (by simp)] at h
          rcases hasOBC_append_elim h with h1 | ⟨h1, h2⟩ | h1
          · exact hasOBC_append_of_left h1
          · rcases List.mem_cons.mp h2 with h3 | h3
            · exact absurd h3 (by decide)
            · have h4 : ']' ∈ joinSp (splitWsAux cs []) := by rw [hrest]; exact h3
              rcases mem_joinSp h4 with h5 | ⟨w, hw, hxw⟩
              · exact absurd h5 (by decide)
              · rcases splitWsAux_mem_chars cs [] w hw ']' hxw with h6 | h6
                · cases h6
                · exact hasOBC_append_mem (List.mem_cons_of_mem _ h6) acc.reverse h1
          · have h2 : hasOBC (joinSp (splitWsAux cs [])) = true := by
              rw [hrest]
              exact hasOBC_cons_elim (by decide) h1
            have h3 := ih [] h2
            simp only [List.reverse_nil, List.nil_append] at h3
            exact hasOBC_append_of_right (hasOBC_cons_tail h3)
    · rw [if_neg hws] at h
      have h2 := ih (c :: acc) h
      rw [List.reverse_cons, List.append_assoc, List.singleton_append] at h2
      exact h2

theorem joinSp_splitWs_OBC {t : List Char}
    (h : hasOBC (joinSp (splitWs t)) = true) : hasOBC t = true := by
  have h2 := joinSp_splitWsAux_OBC t [] h
  simpa using h2

/-- Claim C10: for every script, clean_script_for_tts removes all bracketed
structural markers and collapses repeated whitespace — the cleaned text never
contains the literal substrings of the hook or close tags and has no two
consecutive whitespace characters. -/
theorem clean_script_spec (s : List Char) :
    containsSub hookTag (clean_script_for_tts s) = false ∧
    containsSub closeTag (clean_script_for_tts s) = false ∧
    noDoubleWs (clean_script_for_tts s) = true := by
  refine ⟨clean_no_ws_free_tag s hookInterior (by decide),
    clean_no_ws_free_tag s closeInterior (by decide), ?_⟩
  rw [clean_script_for_tts]
  obtain ⟨a, b, hab⟩ := stripWs_decomp (subWsRuns (removeBracketTags s))
  have h1 := noDoubleWs_subWsRuns (removeBracketTags s)
  rw [hab, List.append_assoc] at h1
  exact noDoubleWs_append_right (noDoubleWs_append_left h1)

/-! Lemmas about chunk grouping. -/

theorem chunkJoin_nil (k : ℕ) : chunkJoin k [] = [] := by
  rw [chunkJoin]
  simp

theorem chunkJoin_cons {k : ℕ} {ws : List (List Char)} (hk : k ≠ 0) (hws : ws ≠ [])
    (hc : joinSp (ws.take k) ≠ []) :
    chunkJoin k ws = joinSp (ws.take k) :: chunkJoin k (ws.drop k) := by
  rw [chunkJoin]
  simp [hws, hk, hc]

theorem take_ne_nil_of {α : Type} {ws : List α} {k : ℕ} (hws : ws ≠ []) (hk : k ≠ 0) :
    ws.take k ≠ [] := by
  cases ws with
  | nil => exact absurd rfl hws
  | cons w t =>
    cases k with
    | zero => exact absurd rfl hk
    | succ n => simp

theorem joinSp_take_ne_nil {ws : List (List Char)} {k : ℕ} (hws : ws ≠ []) (hk : k ≠ 0)
    (hgood : ∀ w ∈ ws, w ≠ []) : joinSp (ws.take k) ≠ [] := by
  cases hts : ws.take k with
  | nil => exact absurd hts (take_ne_nil_of hws hk)
  | cons w t =>
    have hwm : w ∈ ws := List.take_subset k ws (by rw [hts]; exact List.mem_cons_self w t)
    exact joinSp_ne_nil t (hgood w hwm)

theorem ceil_div_shift {n k : ℕ} (hk : k ≠ 0) (hn : n ≠ 0) :
    (n + k - 1) / k = (n - 1) / k + 1 := by
  have h1 : n + k - 1 = (n - 1) + k := by omega
  rw [h1, Nat.add_div_right _ (Nat.pos_of_ne_zero hk)]

theorem chunkJoin_length (k : ℕ) (hk : k ≠ 0) :
    ∀ (n : ℕ) (ws : List (List Char)), ws.length ≤ n → (∀ w ∈ ws, w ≠ []) →
      (chunkJoin k ws).length = (ws.length + k - 1) / k := by
  intro n
  induction n with
  | zero =>
    intro ws hlen _
    have hws : ws = [] := List.length_eq_zero.mp (Nat.le_zero.mp hlen)
    subst hws
    rw [chunkJoin_nil]
    have h1 : 0 + k - 1 = k - 1 := by omega
    simp only [List.length_nil, h1]
    rw [Nat.div_eq_of_lt (by omega)]
  | succ n ih =>
    intro ws hlen hgood
    by_cases hws : ws = []
    · subst hws
      rw [chunkJoin_nil]
      have h1 : 0 + k - 1 = k - 1 := by omega
      simp only [List.length_nil, h1]
      rw [Nat.div_eq_of_lt (by omega)]
    · have hc := joinSp_take_ne_nil hws hk hgood
      rw [chunkJoin_cons hk hws hc, List.length_cons]
      have hpos : 0 < ws.length := List.length_pos.mpr hws
      have hlen2 : (ws.drop k).length ≤ n := by
        rw [List.length_drop]; omega
      rw [ih (ws.drop k) hlen2 (fun w hw => hgood w ((List.drop_sublist k ws).subset hw)),
        List.length_drop]
      rcases Nat.lt_or_ge ws.length k with hlt | hge
      · have e1 : ws.length - k = 0 := by omega
        rw [e1]
        have e2 : 0 + k - 1 = k - 1 := by omega
        rw [e2, Nat.div_eq_of_lt (by omega)]
        rw [ceil_div_shift hk (by omega), Nat.div_eq_of_lt (by omega)]
      · have e1 : ws.length - k + k - 1 + k = ws.length + k - 1 := by omega
        rw [← Nat.add_div_right (ws.length - k + k - 1) (Nat.pos_of_ne_zero hk), e1]

theorem chunkJoin_dropLast_sizes (k : ℕ) (hk : k ≠ 0) :
    ∀ (n : ℕ) (ws : List (List Char)), ws.length ≤ n →
      (∀ w ∈ ws, w ≠ [] ∧ ∀ c ∈ w, isWsChar c = false) →
      ∀ ch ∈ (chunkJoin k ws).dropLast, (splitWs ch).length = k := by
  intro n
  induction n with
  | zero =>
    intro ws hlen _ ch hch
    have hws : ws = [] := List.length_eq_zero.mp (Nat.le_zero.mp hlen)
    subst hws
    rw [chunkJoin_nil] at hch
    simp at hch
  | succ n ih =>
    intro ws hlen hgood ch hch
    by_cases hws : ws = []
    · subst hws; rw [chunkJoin_nil] at hch; simp at hch
    · have hgood1 : ∀ w ∈ ws, w ≠ [] := fun w hw => (hgood w hw).1
      have hc := joinSp_take_ne_nil hws hk hgood1
      rw [chunkJoin_cons hk hws hc] at hch
      cases hrest : chunkJoin k (ws.drop k) with
      | nil => rw [hrest] at hch; simp at hch
      | cons r rs =>
        rw [hrest] at hch
        rw [show (joinSp (ws.take k) :: r :: rs).dropLast =
            joinSp (ws.take k) :: (r :: rs).dropLast by simp [List.dropLast]] at hch
        rcases List.mem_cons.mp hch with hcheq | hch2
        · subst hcheq
          have hdropne : ws.drop k ≠ [] := by
            intro hd
            rw [hd, chunkJoin_nil] at hrest
            cases hrest
          have hklt : k < ws.length := by
            by_contra hcon
            push_neg at hcon
            exact hdropne (List.drop_eq_nil_iff.mpr hcon)
          have hgt : ∀ w ∈ ws.take k, w ≠ [] ∧ ∀ c ∈ w, isWsChar c = false :=
            fun w hw => hgood w (List.take_subset k ws hw)
          rw [splitWs_joinSp hgt, List.length_take]
          omega
        · have hlen2 : (ws.drop k).length ≤ n := by
            rw [List.length_drop]
            have := List.length_pos.mpr hws
            omega
          refine ih (ws.drop k) hlen2
            (fun w hw => hgood w ((List.drop_sublist k ws).subset hw)) ch ?_
          rw [hrest]
          exact hch2

theorem chunkJoin_word_bounds (k : ℕ) (hk : k ≠ 0) :
    ∀ (n : ℕ) (ws : List (List Char)), ws.length ≤ n →
      (∀ w ∈ ws, w ≠ [] ∧ ∀ c ∈ w, isWsChar c = false) →
      ∀ ch ∈ chunkJoin k ws, 1 ≤ (splitWs ch).length ∧ (splitWs ch).length ≤ k := by
  intro n
  induction n with
  | zero =>
    intro ws hlen _ ch hch
    have hws : ws = [] := List.length_eq_zero.mp (Nat.le_zero.mp hlen)
    subst hws
    rw [chunkJoin_nil] at hch
    cases hch
  | succ n ih =>
    intro ws hlen hgood ch hch
    by_cases hws : ws = []
    · subst hws; rw [chunkJoin_nil] at hch; cases hch
    · have hgood1 : ∀ w ∈ ws, w ≠ [] := fun w hw => (hgood w hw).1
      rw [chunkJoin_cons hk hws (joinSp_take_ne_nil hws hk hgood1)] at hch
      rcases List.mem_cons.mp hch with hcheq | hch2
      · subst hcheq
        have hgt : ∀ w ∈ ws.take k, w ≠ [] ∧ ∀ c ∈ w, isWsChar c = false :=
          fun w hw => hgood w (List.take_subset k ws hw)
        rw [splitWs_joinSp hgt, List.length_take]
        have hpos := List.length_pos.mpr hws
        omega
      · have hlen2 : (ws.drop k).length ≤ n := by
          rw [List.length_drop]
          have := List.length_pos.mpr hws
          omega
        exact ih (ws.drop k) hlen2
          (fun w hw => hgood w ((List.drop_sublist k ws).subset hw)) ch hch2

theorem chunkJoin_OBC_free (k : ℕ) (hk : k ≠ 0) :
    ∀ (n : ℕ) (ws : List (List Char)), ws.length ≤ n → (∀ w ∈ ws, w ≠ []) →
      hasOBC (joinSp ws) = false →
      ∀ ch ∈ chunkJoin k ws, hasOBC ch = false := by
  intro n
  induction n with
  | zero =>
    intro ws hlen _ _ ch hch
    have hws : ws = [] := List.length_eq_zero.mp (Nat.le_zero.mp hlen)
    subst hws
    rw [chunkJoin_nil] at hch
    cases hch
  | succ n ih =>
    intro ws hlen hgood hOBC ch hch
    by_cases hws : ws = []
    · subst hws; rw [chunkJoin_nil] at hch; cases hch
    · rw [chunkJoin_cons hk hws (joinSp_take_ne_nil hws hk hgood)] at hch
      cases hdrop : ws.drop k with
      | nil =>
        have htake : ws.take k = ws := by
          have h2 := List.take_append_drop k ws
          rw [hdrop, List.append_nil] at h2
          exact h2
        rcases List.mem_cons.mp hch with hcheq | hch2
        · subst hcheq
          rw [htake]
          exact hOBC
        · rw [hdrop, chunkJoin_nil] at hch2
          cases hch2
      | cons d ds =>
        have hdne : ws.drop k ≠ [] := by rw [hdrop]; simp
        have hsplit : joinSp ws = joinSp (ws.take k) ++ ' ' :: joinSp (ws.drop k) := by
          conv_lhs => rw [← List.take_append_drop k ws]
          exact joinSp_append hdne (ws.take k) (take_ne_nil_of hws hk)
        rcases List.mem_cons.mp hch with hcheq | hch2
        · subst hcheq
          cases hx : hasOBC (joinSp (ws.take k)) with
          | false => rfl
          | true =>
            have h2 := hasOBC_append_of_left (v := ' ' :: joinSp (ws.drop k)) hx
            rw [← hsplit] at h2
            rw [h2] at hOBC
            cases hOBC
        · have hOBC2 : hasOBC (joinSp (ws.drop k)) = false := by
            cases hx : hasOBC (joinSp (ws.drop k)) with
            | false => rfl
            | true =>
              have h1 : hasOBC (' ' :: joinSp (ws.drop k)) = true := hasOBC_cons_tail hx
              have h2 := hasOBC_append_of_right (u := joinSp (ws.take k)) h1
              rw [← hsplit] at h2
              rw [h2] at hOBC
              cases hOBC
          have hlen2 : (ws.drop k).length ≤ n := by
            rw [List.length_drop]
            have := List.length_pos.mpr hws
            omega
          exact ih (ws.drop k) hlen2
            (fun w hw => hgood w ((List.drop_sublist k ws).subset hw)) hOBC2 ch hch2

/-- Claim C9, counterexample: a bracketed span containing a newline is not
removed by the regex (its dot does not match newline), the newline is then
collapsed to a space, and the residue lands inside a chunk: for the text
open-bracket A newline close-bracket b c d with chunk size 4, the first
returned chunk contains the bracketed marker left-bracket A space
right-bracket. -/
theorem chunk_marker_counterexample :
    (chunk_text_for_tiktok ['[', 'A', '\n', ']', ' ', 'b', ' ', 'c', ' ', 'd'] 4).any
      containsMarker = true := by
  rw [chunk_text_for_tiktok]
  rw [show splitWs (clean_script_for_tts ['[', 'A', '\n', ']', ' ', 'b', ' ', 'c', ' ', 'd']) =
    [['[', 'A'], [']'], ['b'], ['c'], ['d']] from by decide]
  rw [chunkJoin_cons (by decide) (by decide) (by decide)]
  rw [show List.drop 4 [['[', 'A'], [']'], ['b'], ['c'], ['d']] = [['d']] from rfl]
  rw [chunkJoin_cons (by decide) (by decide) (by decide)]
  rw [show List.drop 4 [(['d'] : List Char)] = [] from rfl, chunkJoin_nil]
  decide

/-- Claim C9, amended: for every text and chunk size k at least 1,
chunk_text_for_tiktok returns exactly the ceiling of n divided by k chunks
(n the word count of the cleaned text), every chunk before the last containing
exactly k words and every chunk between 1 and k words; and provided no bracket
pair of the input spans a newline (every opening bracket either closes on its
own line or has no closing bracket after it — tagsOneLine, satisfied in
particular by every newline-free text, see tagsOneLine_of_no_nl, and by
ordinary multi-line scripts with single-line tags), no returned chunk contains
a bracketed marker.  (A bracketed span containing a newline survives cleaning
as marker residue inside a chunk, so the marker-freedom needs this proviso.) -/
theorem chunk_text_spec (s : List Char) (k : ℕ) (hk : 1 ≤ k) :
    (chunk_text_for_tiktok s k).length =
      ((splitWs (clean_script_for_tts s)).length + k - 1) / k ∧
    (∀ ch ∈ (chunk_text_for_tiktok s k).dropLast, (splitWs ch).length = k) ∧
    (∀ ch ∈ chunk_text_for_tiktok s k,
      1 ≤ (splitWs ch).length ∧ (splitWs ch).length ≤ k) ∧
    (tagsOneLine s = true → ∀ ch ∈ chunk_text_for_tiktok s k, containsMarker ch = false) := by
  have hk0 : k ≠ 0 := by omega
  have hgood := splitWs_words (clean_script_for_tts s)
  simp only [chunk_text_for_tiktok]
  refine ⟨?_, ?_, ?_, ?_⟩
  · exact chunkJoin_length k hk0 _ _ le_rfl (fun w hw => (hgood w hw).1)
  · exact chunkJoin_dropLast_sizes k hk0 _ _ le_rfl hgood
  · exact chunkJoin_word_bounds k hk0 _ _ le_rfl hgood
  · intro htol ch hch
    have hOBC : hasOBC (joinSp (splitWs (clean_script_for_tts s))) = false := by
      cases hx : hasOBC (joinSp (splitWs (clean_script_for_tts s))) with
      | false => rfl
      | true =>
        exfalso
        have h1 : hasOBC (clean_script_for_tts s) = true := joinSp_splitWs_OBC hx
        rw [clean_script_for_tts] at h1
        obtain ⟨a, b, hab⟩ := stripWs_decomp (subWsRuns (removeBracketTags s))
        have h2 : hasOBC (subWsRuns (removeBracketTags s)) = true := by
          rw [hab, List.append_assoc]
          exact hasOBC_append_of_right (hasOBC_append_of_left h1)
        have h3 := hasOBC_subWsRuns h2
        rw [removeBracketTags_no_OBC htol] at h3
        cases h3
    have hOBCch := chunkJoin_OBC_free k hk0 _ _ le_rfl
      (fun w hw => (hgood w hw).1) hOBC ch hch
    cases hx : containsMarker ch with
    | false => rfl
    | true =>
      have h5 := containsMarker_to_hasOBC hx
      rw [hOBCch] at h5
      cases h5

/-- Claim C9, witness for the amended theorem: a script with a hook tag and
five words, chunked four words at a time, yields the ceiling count of two
chunks. -/
theorem chunk_text_spec_witness :
    1 ≤ 4 ∧
    (chunk_text_for_tiktok
        ['[', 'H', 'O', 'O', 'K', ']', ' ', 'a', ' ', 'b', ' ', 'c', ' ', 'd', ' ', 'e']
        4).length =
      ((splitWs (clean_script_for_tts
        ['[', 'H', 'O', 'O', 'K', ']', ' ', 'a', ' ', 'b', ' ', 'c', ' ', 'd', ' ', 'e'])).length
        + 4 - 1) / 4 :=
  ⟨by decide, (chunk_text_spec _ 4 (by decide)).1⟩

end ScapWeb
